import Mathlib

set_option maxRecDepth 8000

/-!
Shallow embedding of the process-mining analytics core of the repository
(`lib/mining.ts`, `lib/simulate.ts`, `lib/layout.ts`, `lib/playback.ts`).

Modelling conventions, used uniformly below:

* JavaScript numbers are modelled as exact rationals (`ℚ`).  Float literals
  such as `0.95`, `0.4`, `0.8` are modelled by the exact rationals `19/20`,
  `2/5`, `4/5`.
* A JavaScript timestamp is the numeric value `+new Date(iso)` in
  milliseconds.  An unparseable timestamp yields `NaN` in JS; we model a
  timestamp as `Option ℚ`, `none` standing for `NaN`.  Arithmetic on a `none`
  timestamp propagates `none` (as `NaN` propagates), and the
  `Number.isFinite` guards of the source map to matches on `Option`.
* `Math.floor`/`Math.ceil`/`Math.round` are `ratFloor`/`ratCeil`/`jsRound`
  (JS `Math.round x = Math.floor (x + 1/2)` for every finite `x`).
* A JS `Map` (insertion-ordered, unique keys) is an association list
  (`List (κ × α)`) with `alSet` mirroring `Map.set` (update in place if the
  key exists, append otherwise) and `alGet?` mirroring `Map.get`; iteration
  order of the list is the JS iteration order.  A JS `Set<string>` is a
  `List String` without duplicates, built in insertion order.
* `Array.prototype.sort` with a numeric comparator is a stable sort; for
  all-finite keys this is insertion sort with strict `<` (equal keys keep
  their original relative order).  Per the ECMAScript spec a comparator
  returning `NaN` is treated as `+0` (elements compare as equal); our
  insertion sort therefore treats a `none` timestamp as equal to anything,
  which is one of the orders the spec permits.
-/

namespace PM

/-! ### JS numeric helpers -/

/-- Floor of a rational as an integer.  `q.den` is positive and Lean's `Int`
division `/` on `num / den` is Euclidean division, which for a positive
divisor is floor division (`Rat.floor_def`). -/
def ratFloor (q : ℚ) : ℤ := q.num / q.den

/-- Ceiling of a rational as an integer (`⌈q⌉ = -⌊-q⌋`). -/
def ratCeil (q : ℚ) : ℤ := -ratFloor (-q)

theorem ratFloor_eq_floor (q : ℚ) : ratFloor q = ⌊q⌋ := Rat.floor_def.symm

theorem ratCeil_eq_ceil (q : ℚ) : ratCeil q = ⌈q⌉ := by
  rw [ratCeil, ratFloor_eq_floor, ← Int.ceil_neg, neg_neg]

/-- JS `Math.round` (round half toward `+∞`): `Math.round x = ⌊x + 0.5⌋`. -/
def jsRound (q : ℚ) : ℤ := ratFloor (q + 1/2)

/-- `Math.round` of a non-negative rational, as a natural number. -/
def jsRoundNat (q : ℚ) : ℕ := (jsRound q).toNat

/-- `Math.floor` of a non-negative rational, as a natural number. -/
def ratFloorNat (q : ℚ) : ℕ := (ratFloor q).toNat

/-- `clamp` from `lib/mining.ts`:
`clamp(n, a, b) = Math.max(a, Math.min(b, n))`.
Note the argument order: `n` is the value, then `a`, then `b`. -/
def clamp (n a b : ℚ) : ℚ := max a (min b n)

/-! ### Association lists (JS `Map`) -/

variable {κ α : Type} [DecidableEq κ]

/-- `Map.get`: first binding of the key, if any. -/
def alGet? : List (κ × α) → κ → Option α
  | [], _ => none
  | p :: rest, k => if p.1 = k then some p.2 else alGet? rest k

/-- `map.get(k) ?? d`. -/
def alGetD (m : List (κ × α)) (k : κ) (d : α) : α := (alGet? m k).getD d

/-- `Map.set`: replace the binding in place if the key exists (JS keeps the
original insertion position), otherwise append at the end. -/
def alSet (k : κ) (v : α) : List (κ × α) → List (κ × α)
  | [] => [(k, v)]
  | p :: rest => if p.1 = k then (k, v) :: rest else p :: alSet k v rest

/-- The keys of the map, in iteration order. -/
def alKeys (m : List (κ × α)) : List κ := m.map Prod.fst

theorem alGet?_set_self (k : κ) (v : α) (m : List (κ × α)) :
    alGet? (alSet k v m) k = some v := by
  induction m with
  | nil => simp [alSet, alGet?]
  | cons p rest ih =>
    by_cases h : p.1 = k
    · simp [alSet, h, alGet?]
    · simp [alSet, h, alGet?, ih]

theorem alGet?_set_ne {k k' : κ} (h : k' ≠ k) (v : α) (m : List (κ × α)) :
    alGet? (alSet k' v m) k = alGet? m k := by
  induction m with
  | nil => simp [alSet, alGet?, h]
  | cons p rest ih =>
    by_cases hp : p.1 = k'
    · have hpk : p.1 ≠ k := by rw [hp]; exact h
      simp [alSet, hp, alGet?, h, hpk]
    · simp only [alSet, hp, if_false, alGet?]
      by_cases hpk : p.1 = k
      · simp [hpk]
      · simp [hpk, ih]

theorem mem_alKeys_set (k k' : κ) (v : α) (m : List (κ × α)) :
    k ∈ alKeys (alSet k' v m) ↔ k ∈ alKeys m ∨ k = k' := by
  induction m with
  | nil => simp [alSet, alKeys, eq_comm]
  | cons p rest ih =>
    by_cases hp : p.1 = k'
    · simp only [alSet, hp, if_true, alKeys, List.map_cons, List.mem_cons]
      constructor
      · intro h
        rcases h with h | h
        · exact Or.inr h
        · exact Or.inl (Or.inr h)
      · intro h
        rcases h with h | h
        · rcases h with h | h
          · exact Or.inl h
          · exact Or.inr h
        · exact Or.inl h
    · simp only [alSet, hp, if_false, alKeys, List.map_cons, List.mem_cons]
      have : List.map Prod.fst (alSet k' v rest) = alKeys (alSet k' v rest) := rfl
      rw [this, ih]
      simp only [alKeys]
      tauto

theorem mem_of_mem_alSet {k' : κ} {v : α} {m : List (κ × α)} {x : κ × α}
    (h : x ∈ alSet k' v m) : x = (k', v) ∨ x ∈ m := by
  induction m with
  | nil => simpa [alSet] using h
  | cons p rest ih =>
    by_cases hp : p.1 = k'
    · simp only [alSet, hp, if_true, List.mem_cons] at h
      rcases h with h | h
      · exact Or.inl h
      · exact Or.inr (List.mem_cons_of_mem _ h)
    · simp only [alSet, hp, if_false, List.mem_cons] at h
      rcases h with h | h
      · exact Or.inr (h ▸ List.mem_cons_self _ _)
      · rcases ih h with h' | h'
        · exact Or.inl h'
        · exact Or.inr (List.mem_cons_of_mem _ h')

theorem alGet?_eq_none_iff (m : List (κ × α)) (k : κ) :
    alGet? m k = none ↔ k ∉ alKeys m := by
  induction m with
  | nil => simp [alGet?, alKeys]
  | cons p rest ih =>
    by_cases hp : p.1 = k
    · simp [alGet?, hp, alKeys]
    · simp [alGet?, hp, alKeys, ih, Ne.symm hp]

theorem alKeys_nodup_set (k : κ) (v : α) (m : List (κ × α))
    (h : (alKeys m).Nodup) : (alKeys (alSet k v m)).Nodup := by
  induction m with
  | nil => simp [alSet, alKeys]
  | cons p rest ih =>
    simp only [alKeys, List.map_cons, List.nodup_cons] at h
    by_cases hp : p.1 = k
    · simp only [alSet, hp, if_true, alKeys, List.map_cons, List.nodup_cons]
      exact ⟨hp ▸ h.1, h.2⟩
    · simp only [alSet, hp, if_false, alKeys, List.map_cons, List.nodup_cons]
      refine ⟨?_, ih h.2⟩
      intro hmem
      rw [show List.map Prod.fst (alSet k v rest) = alKeys (alSet k v rest) from rfl,
        mem_alKeys_set] at hmem
      rcases hmem with hmem | hmem
      · exact h.1 (by simpa [alKeys] using hmem)
      · exact hp hmem

theorem alGet?_of_mem_nodup {m : List (κ × α)} (hnd : (alKeys m).Nodup)
    {k : κ} {v : α} (h : (k, v) ∈ m) : alGet? m k = some v := by
  induction m with
  | nil => simp at h
  | cons p rest ih =>
    simp only [alKeys, List.map_cons, List.nodup_cons] at hnd
    rcases List.mem_cons.1 h with h | h
    · simp [← h, alGet?]
    · have hk : p.1 ≠ k := by
        intro he
        exact hnd.1 (he ▸ (by simpa [alKeys] using List.mem_map_of_mem Prod.fst h))
      simp [alGet?, hk, ih hnd.2 h]

end PM

namespace PM

variable {κ α : Type} [DecidableEq κ]

/-! ### Data model (`lib/mining.ts` types) -/

inductive Actor | BE | BM | SIMU | IPT | GATE | MANUAL
  deriving DecidableEq

inductive Outcome | OK | ISSUE | REWORK
  deriving DecidableEq

/-- The closed set of issue families (the four French labels). -/
inductive IssueFamily | qualite | donnees | organisation | risque
  deriving DecidableEq

/-- One event of the log (`EngEvent`).  `timestamp` is the parsed numeric
value of the ISO string, in milliseconds (`none` = unparseable / `NaN`). -/
structure EngEvent where
  case_id : String
  activity : String
  timestamp : Option ℚ
  actor : Option Actor
  tool : Option String
  resource : Option String
  outcome : Option Outcome
  issue_family : Option IssueFamily
  deriving DecidableEq

structure DFGNode where
  id : String
  count : ℕ
  deriving DecidableEq

structure DFGEdge where
  source : String
  target : String
  count : ℕ
  deriving DecidableEq

structure DFG where
  nodes : List DFGNode
  edges : List DFGEdge
  deriving DecidableEq

structure ProcessModel where
  name : String
  start : String
  stop : String        -- field `end` of the source (`end` is a Lean keyword)
  activities : List String
  allowedEdges : List (String × String)
  deriving DecidableEq

structure EdgeStats where
  count : ℕ
  totalMin : ℚ
  meanMin : ℚ
  p95Min : ℚ
  medianMin : ℚ
  deriving DecidableEq

structure Pos where
  x : ℚ
  y : ℚ
  deriving DecidableEq

/-- The edge key `` `${a} -> ${b}` ``. -/
def edgeKey (a b : String) : String := a ++ " -> " ++ b

/-! ### `percentile` (`lib/mining.ts`) -/

/-- `percentile(sortedAsc, p)` with linear interpolation between the two
neighbouring ranks (the source's exact computation). -/
def percentile (sortedAsc : List ℚ) (p : ℚ) : ℚ :=
  if sortedAsc.length = 0 then 0
  else
    let idx : ℚ := ((sortedAsc.length : ℚ) - 1) * p
    let lo : ℤ := ratFloor idx
    let hi : ℤ := ratCeil idx
    if lo = hi then sortedAsc.getD lo.toNat 0
    else
      let w : ℚ := idx - (lo : ℚ)
      sortedAsc.getD lo.toNat 0 * (1 - w) + sortedAsc.getD hi.toNat 0 * w

/-! ### Timestamp ordering and the stable sort of `groupByCase` -/

/-- Strictly-less on possibly-`NaN` timestamps: the comparator
`(a, b) => (+new Date(a.timestamp)) - (+new Date(b.timestamp))` is negative
exactly when both values are finite and the first is smaller (a `NaN`
comparator value is treated as `+0` by the ECMAScript sort). -/
def tsLt : Option ℚ → Option ℚ → Bool
  | some x, some y => decide (x < y)
  | _, _ => false

/-- Stable insertion of an event into an already-sorted list: the new element
goes after every element that does not compare strictly greater. -/
def insertEv (x : EngEvent) : List EngEvent → List EngEvent
  | [] => [x]
  | y :: ys => if tsLt x.timestamp y.timestamp then x :: y :: ys else y :: insertEv x ys

/-- Stable ascending sort by timestamp (the JS
`arr.sort((a, b) => +new Date(a.timestamp) - +new Date(b.timestamp))`). -/
def sortByTs (l : List EngEvent) : List EngEvent := l.foldl (fun acc x => insertEv x acc) []

/-- `groupByCase`: insertion-ordered map case-id → events (push in log order,
then each group sorted chronologically). -/
def groupByCase (events : List EngEvent) : List (String × List EngEvent) :=
  (events.foldl (fun m e => alSet e.case_id (alGetD m e.case_id [] ++ [e]) m) []).map
    (fun g => (g.1, sortByTs g.2))

/-- The adjacent pairs `(trace[i], trace[i+1])` of the `for (i < len-1)` loops. -/
def adjPairs {β : Type} (l : List β) : List (β × β) := l.zip l.tail

/-! ### `buildDFG` -/

/-- Increment a counter in a JS `Map<string, number>`
(`m.set(k, (m.get(k) ?? 0) + 1)`). -/
def bump (k : κ) (m : List (κ × ℕ)) : List (κ × ℕ) := alSet k (alGetD m k 0 + 1) m

/-- Does `sep` occur at the head of `l`? -/
def leadMatches : List Char → List Char → Bool
  | [], _ => true
  | _ :: _, [] => false
  | a :: as, b :: bs => a = b && leadMatches as bs

/-- JS `String.split(sep)` on lists of characters, with explicit fuel
(structurally decreasing; `fuel = l.length + 1` suffices for a non-empty
separator). -/
def splitGo (sep : List Char) : ℕ → List Char → List Char → List (List Char)
  | 0, acc, l => [acc ++ l]
  | fuel + 1, acc, l =>
    if leadMatches sep l then
      acc :: splitGo sep fuel [] (l.drop sep.length)
    else
      match l with
      | [] => [acc]
      | c :: rest => splitGo sep fuel (acc ++ [c]) rest

/-- JS `s.split(sep)` for a non-empty separator. -/
def jsSplit (s sep : String) : List String :=
  (splitGo sep.data (s.data.length + 1) [] s.data).map String.mk

/-- `buildDFG`: node visit counts and adjacent-transition counts, accumulated
case by case in map insertion order; the edge key is split back into
`source`/`target` exactly as the source does (`k.split(" -> ")`). -/
def buildDFG (events : List EngEvent) : DFG :=
  let byCase := groupByCase events
  let nodeCount : List (String × ℕ) :=
    byCase.foldl (fun m g => g.2.foldl (fun m e => bump e.activity m) m) []
  let edgeCount : List (String × ℕ) :=
    byCase.foldl
      (fun m g => (adjPairs g.2).foldl
        (fun m p => bump (edgeKey p.1.activity p.2.activity) m) m) []
  { nodes := nodeCount.map (fun g => { id := g.1, count := g.2 }),
    edges := edgeCount.map (fun g =>
      let parts := jsSplit g.1 " -> "
      { source := parts.getD 0 "", target := parts.getD 1 "", count := g.2 }) }

/-! ### `computeEdgeStats` -/

/-- The transition duration in minutes,
`(+new Date(b.timestamp) - +new Date(a.timestamp)) / (1000 * 60)`;
`none` models the `NaN` produced by an unparseable timestamp. -/
def dtMinutes (a b : EngEvent) : Option ℚ :=
  match a.timestamp, b.timestamp with
  | some x, some y => some ((y - x) / 60000)
  | _, _ => none

/-- The defensive filter `Number.isFinite(dtMin) && dtMin >= 0` of the
source: the duration survives only when it is finite and non-negative. -/
def goodDt (a b : EngEvent) : Option ℚ :=
  match dtMinutes a b with
  | some d => if 0 ≤ d then some d else none
  | none => none

/-- One loop iteration of `computeEdgeStats`'s collection phase: the key is
`set` unconditionally (`durations.set(key, arr)`), and the duration is
pushed only when it passes the finite-and-non-negative filter. -/
def durStep (m : List (String × List ℚ)) (p : EngEvent × EngEvent) :
    List (String × List ℚ) :=
  let key := edgeKey p.1.activity p.2.activity
  let arr := alGetD m key []
  let arr := match goodDt p.1 p.2 with
    | some d => arr ++ [d]
    | none => arr
  alSet key arr m

/-- The `durations` map of `computeEdgeStats`. -/
def collectDurations (events : List EngEvent) : List (String × List ℚ) :=
  (groupByCase events).foldl (fun m g => (adjPairs g.2).foldl durStep m) []

/-- The aggregation step of `computeEdgeStats` for one key's duration list:
sort ascending, then `total` / `count` / `mean` (`0` when the list is empty)
/ `p95` / `median`. -/
def statsOfDurations (arr : List ℚ) : EdgeStats :=
  let s := List.insertionSort (· ≤ ·) arr
  let totalMin := s.foldl (· + ·) 0
  let count := s.length
  { count := count, totalMin := totalMin,
    meanMin := if count = 0 then 0 else totalMin / count,
    p95Min := percentile s (19/20),
    medianMin := percentile s (1/2) }

/-- `computeEdgeStats`: per-edge duration statistics, in map insertion
order. -/
def computeEdgeStats (events : List EngEvent) : List (String × EdgeStats) :=
  (collectDurations events).map (fun g => (g.1, statsOfDurations g.2))

/-! ### `computeCaseLeadTimes` -/

structure LeadTimeSummary where
  count : ℕ
  meanMin : ℚ
  medianMin : ℚ
  p95Min : ℚ
  deriving DecidableEq

/-- Lead time of one case group in minutes (`trace[0]` to
`trace[len-1]` of the chronologically sorted trace), `none` when a
timestamp is unparseable. -/
def caseLead (tr : List EngEvent) : Option ℚ :=
  match tr.head?, tr.getLast? with
  | some a, some b => dtMinutes a b
  | _, _ => none

/-- `computeCaseLeadTimes`: cases with fewer than two events are skipped;
surviving lead times are filtered (finite, non-negative), sorted and
aggregated. -/
def computeCaseLeadTimes (events : List EngEvent) : LeadTimeSummary :=
  let byCase := groupByCase events
  let leadTimes : List ℚ :=
    byCase.foldl
      (fun acc g =>
        if g.2.length < 2 then acc
        else
          match caseLead g.2 with
          | some d => if 0 ≤ d then acc ++ [d] else acc
          | none => acc) []
  let s := List.insertionSort (· ≤ ·) leadTimes
  let totalMin := s.foldl (· + ·) 0
  let count := s.length
  { count := count,
    meanMin := if count = 0 then 0 else totalMin / count,
    medianMin := percentile s (1/2),
    p95Min := percentile s (19/20) }

/-! ### `buildAllowedEdgeSet`, conformance, deviation time -/

/-- `buildAllowedEdgeSet`: the `Set` of `"A -> B"` keys, in insertion order
without duplicates. -/
def buildAllowedEdgeSet (model : ProcessModel) : List String :=
  model.allowedEdges.foldl
    (fun s p =>
      let k := edgeKey p.1 p.2
      if s.contains k then s else s ++ [k]) []

structure ConformanceSummary where
  conformance : ℤ
  totalEdges : ℕ
  badEdges : ℕ
  deriving DecidableEq

/-- The two counters of `computeConformanceSummary`'s loop:
`(totalEdges, badEdges)`. -/
def conformanceCounts (events : List EngEvent) (allowed : List String) : ℕ × ℕ :=
  (groupByCase events).foldl
    (fun acc g =>
      (adjPairs g.2).foldl
        (fun (acc : ℕ × ℕ) p =>
          let k := edgeKey p.1.activity p.2.activity
          (acc.1 + 1, if allowed.contains k then acc.2 else acc.2 + 1)) acc) (0, 0)

/-- `computeConformanceSummary`: 100 when there is no transition, otherwise
`Math.round(((total - bad) / total) * 100)`. -/
def computeConformanceSummary (events : List EngEvent) (allowed : List String) :
    ConformanceSummary :=
  let c := conformanceCounts events allowed
  { conformance :=
      if c.1 = 0 then 100 else jsRound (((c.1 : ℚ) - (c.2 : ℚ)) / (c.1 : ℚ) * 100),
    totalEdges := c.1, badEdges := c.2 }

/-- `computeDeviationTime`: total minutes spent on disallowed transitions;
non-finite or negative durations are skipped (`continue`), they add
nothing. -/
def computeDeviationTime (events : List EngEvent) (allowed : List String) : ℚ :=
  (groupByCase events).foldl
    (fun total g =>
      (adjPairs g.2).foldl
        (fun (total : ℚ) p =>
          let k := edgeKey p.1.activity p.2.activity
          match goodDt p.1 p.2 with
          | none => total
          | some d => if allowed.contains k then total else total + d) total) 0

/-! ### `lib/simulate.ts` -/

/-- The deterministic RNG `mulberry32`, as one step of explicit state
passing.  The closure variable `t` is kept un-wrapped exactly as in JS
(`t += 0x6D2B79F5` does not mask); every bitwise operator coerces its
operands to 32 bits, hence the `% 2^32` at each use.  `Math.imul` is a
32-bit product; the intermediate `r + Math.imul(...)` fits a double
exactly and is truncated to 32 bits by the following xor.  The returned
value `(r ^ r >>> 14) >>> 0) / 4294967296` lies in `[0, 1)`. -/
def mbStep (t : ℕ) : ℚ × ℕ :=
  let t1 := t + 0x6D2B79F5
  let tm := t1 % 4294967296
  let r0 := Nat.xor tm (tm >>> 15)
  let r1 := (r0 * (tm ||| 1)) % 4294967296
  let i2 := ((Nat.xor r1 (r1 >>> 7)) * (r1 ||| 61)) % 4294967296
  let r2 := Nat.xor r1 ((r1 + i2) % 4294967296)
  let out := Nat.xor r2 (r2 >>> 14)
  ((out : ℚ) / 4294967296, t1)

/-- `ISSUE_FAMILIES` (the four French labels, in source order). -/
def ISSUE_FAMILIES : List IssueFamily :=
  [.qualite, .donnees, .organisation, .risque]

/-- `randomIssueFamily(rnd)`:
`ISSUE_FAMILIES[clamp(Math.floor(rnd()*len), 0, len-1)]`. -/
def randomIssueFamily (t : ℕ) : IssueFamily × ℕ :=
  let (q, t') := mbStep t
  let i := ratFloorNat (q * (ISSUE_FAMILIES.length : ℚ))
  (ISSUE_FAMILIES.getD (max 0 (min (ISSUE_FAMILIES.length - 1) i)) .risque, t')

/-- The static TO-BE reference model (`TO_BE` of `lib/simulate.ts`). -/
def TO_BE : ProcessModel :=
  { name := "WF Flow-3D — TO-BE (controlled digital transfers)"
    start := "BE - CATPart (pièce)"
    stop := "Decision - Archive/Release"
    activities :=
      [ "BE - CATPart (pièce)"
      , "BM - Pre-process (CATPart→STL)"
      , "Gate 1 - Validation STL"
      , "SIMU - FLOW-3D (Verse «360»)"
      , "Gate 2 - Validation CSV (débit)"
      , "BE - Secteur (CATPart)"
      , "SIMU - ProCast (Thermique préchauff.)"
      , "BM - Pre-process (Modèle préchauff. Abaqus)"
      , "SIMU - ABAQUS (Calcul préchauff.)"
      , "BM - Pre-process (Transfert déformé STL/IN2)"
      , "Gate 3 - Validation transfert déformé"
      , "SIMU - FLOW-3D (Remplissage «zoom»)"
      , "SIMU - ABAQUS (Mécanique remplissage)"
      , "Decision - Archive/Release" ]
    allowedEdges :=
      [ ("BE - CATPart (pièce)", "BM - Pre-process (CATPart→STL)")
      , ("BM - Pre-process (CATPart→STL)", "Gate 1 - Validation STL")
      , ("Gate 1 - Validation STL", "SIMU - FLOW-3D (Verse «360»)")
      , ("SIMU - FLOW-3D (Verse «360»)", "Gate 2 - Validation CSV (débit)")
      , ("BE - Secteur (CATPart)", "SIMU - ProCast (Thermique préchauff.)")
      , ("SIMU - ProCast (Thermique préchauff.)", "BM - Pre-process (Modèle préchauff. Abaqus)")
      , ("BM - Pre-process (Modèle préchauff. Abaqus)", "SIMU - ABAQUS (Calcul préchauff.)")
      , ("SIMU - ABAQUS (Calcul préchauff.)", "BM - Pre-process (Transfert déformé STL/IN2)")
      , ("BM - Pre-process (Transfert déformé STL/IN2)", "Gate 3 - Validation transfert déformé")
      , ("Gate 2 - Validation CSV (débit)", "SIMU - FLOW-3D (Remplissage «zoom»)")
      , ("Gate 3 - Validation transfert déformé", "SIMU - FLOW-3D (Remplissage «zoom»)")
      , ("SIMU - FLOW-3D (Remplissage «zoom»)", "SIMU - ABAQUS (Mécanique remplissage)")
      , ("SIMU - ABAQUS (Mécanique remplissage)", "Decision - Archive/Release")
      , ("SIMU - FLOW-3D (Remplissage «zoom»)", "BM - Pre-process (Transfert déformé STL/IN2)") ]
  }

/-- `STAFFING` (mock head counts per role). -/
def staffing : Actor → ℕ
  | .BE => 4 | .BM => 3 | .SIMU => 3 | .IPT => 1 | .GATE => 1 | .MANUAL => 1

def actorName : Actor → String
  | .BE => "BE" | .BM => "BM" | .SIMU => "SIMU" | .IPT => "IPT"
  | .GATE => "GATE" | .MANUAL => "MANUAL"

/-- `"0"`-padding on the left (JS `String(i).padStart(n, "0")`). -/
def padLeft (s : String) (n : ℕ) : String :=
  String.mk (List.replicate (n - s.data.length) '0') ++ s

/-- `RESOURCE_POOLS[role] = [role-01, …, role-0k]` with `k = STAFFING[role]`. -/
def resourcePool (a : Actor) : List String :=
  (List.range (staffing a)).map (fun i => actorName a ++ "-" ++ padLeft (Nat.repr (i + 1)) 2)

/-- JS `s.startsWith(pre)`. -/
def jsStartsWith (s pre : String) : Bool := leadMatches pre.data s.data

/-- JS `s.includes(sub)` (substring search). -/
def subSearch (pat : List Char) : List Char → Bool
  | [] => leadMatches pat []
  | c :: rest => leadMatches pat (c :: rest) || subSearch pat rest

def jsIncludes (s sub : String) : Bool := subSearch sub.data s.data

/-- `actorFromActivity`: role derived from the activity-name prefix. -/
def actorFromActivity (activity : String) : Option Actor :=
  if jsStartsWith activity "BE -" then some .BE
  else if jsStartsWith activity "BM -" then some .BM
  else if jsStartsWith activity "SIMU -" then some .SIMU
  else if jsStartsWith activity "Decision" then some .IPT
  else if jsStartsWith activity "Gate" then some .GATE
  else if jsStartsWith activity "Manual" then some .MANUAL
  else none

/-- `toolFromActivity`: tool derived from substrings of the activity name. -/
def toolFromActivity (activity : String) : String :=
  if jsIncludes activity "FLOW-3D" then "FLOW-3D"
  else if jsIncludes activity "ABAQUS" then "ABAQUS"
  else if jsIncludes activity "ProCast" then "ProCast"
  else if jsIncludes activity "Pre-process" then "Pre-process"
  else if jsStartsWith activity "Gate" || jsStartsWith activity "Decision" then "PLM"
  else if jsStartsWith activity "Manual" then "Local/Script"
  else "CATIA/3DEXP"

/-- `pickResource(actor, rnd)`: a uniformly chosen member of the role's
pool; consumes one RNG draw whenever the actor is defined and its pool is
non-empty. -/
def pickResource (actor : Option Actor) (t : ℕ) : Option String × ℕ :=
  match actor with
  | none => (none, t)
  | some a =>
    let pool := resourcePool a
    if pool.length = 0 then (some (actorName a ++ "-01"), t)
    else
      let (q, t') := mbStep t
      (some (pool.getD (ratFloorNat (q * (pool.length : ℚ))) ""), t')

/-- `addMinutes(iso, minutes)`: `+minutes` on the parsed timestamp.  The
source goes through local-time `getMinutes`/`setMinutes`, which adds
exactly `minutes` minutes to the epoch value (modelled directly on the
numeric timestamp). -/
def addMinutes (ts : Option ℚ) (m : ℚ) : Option ℚ := ts.map (fun x => x + m * 60000)

/-- One `base + Math.round(rnd() * spread)` duration draw of
`genToBeCase`. -/
def drawDur (t : ℕ) (base spread : ℕ) : ℕ × ℕ :=
  let (q, t') := mbStep t
  (base + jsRoundNat (q * (spread : ℚ)), t')

/-- `genToBeCase`: the canonical 14-activity TO-BE trace of one case.  The
14 duration draws happen first (object-literal evaluation order), then the
events are built in sequence, each consuming one RNG draw for its
resource. -/
def genToBeCase (caseId : String) (startTs : Option ℚ) (t : ℕ) : List EngEvent × ℕ :=
  let (cad, t) := drawDur t 60 120
  let (stl, t) := drawDur t 20 60
  let (gate1, t) := drawDur t 8 20
  let (flow360, t) := drawDur t 45 120
  let (gate2, t) := drawDur t 8 20
  let (sector, t) := drawDur t 20 40
  let (procast, t) := drawDur t 90 240
  let (prepPreheat, t) := drawDur t 25 60
  let (abqPreheat, t) := drawDur t 60 180
  let (transferDef, t) := drawDur t 25 60
  let (gate3, t) := drawDur t 8 20
  let (fillZoom, t) := drawDur t 70 180
  let (abqFill, t) := drawDur t 80 220
  let (release, t) := drawDur t 15 45
  let seq : List (String × ℕ) :=
    [ ("BE - CATPart (pièce)", cad)
    , ("BM - Pre-process (CATPart→STL)", stl)
    , ("Gate 1 - Validation STL", gate1)
    , ("SIMU - FLOW-3D (Verse «360»)", flow360)
    , ("Gate 2 - Validation CSV (débit)", gate2)
    , ("BE - Secteur (CATPart)", sector)
    , ("SIMU - ProCast (Thermique préchauff.)", procast)
    , ("BM - Pre-process (Modèle préchauff. Abaqus)", prepPreheat)
    , ("SIMU - ABAQUS (Calcul préchauff.)", abqPreheat)
    , ("BM - Pre-process (Transfert déformé STL/IN2)", transferDef)
    , ("Gate 3 - Validation transfert déformé", gate3)
    , ("SIMU - FLOW-3D (Remplissage «zoom»)", fillZoom)
    , ("SIMU - ABAQUS (Mécanique remplissage)", abqFill)
    , ("Decision - Archive/Release", release) ]
  let r := seq.foldl
    (fun (acc : Option ℚ × ℕ × List EngEvent) step =>
      let ts := addMinutes acc.1 (step.2 : ℚ)
      let actor := actorFromActivity step.1
      let (res, t') := pickResource actor acc.2.1
      (ts, t',
        acc.2.2 ++
          [{ case_id := caseId, activity := step.1, timestamp := ts, actor := actor,
             tool := some (toolFromActivity step.1), resource := res,
             outcome := some .OK, issue_family := none }]))
    (startTs, t, [])
  (r.2.2, r.2.1)

/-- `splice(idx, 0, x)`. -/
def spliceOne (tr : List EngEvent) (idx : ℕ) (x : EngEvent) : List EngEvent :=
  tr.take idx ++ [x] ++ tr.drop idx

/-- The two manual-insertion blocks of `injectAsIsNoise`, which differ only
in the anchor activity, the inserted activity and the timestamp-jitter
range: an anchor absent or in first position is a defensive no-op; otherwise
a REWORK event with issue family `Données / continuité numérique` is spliced
in immediately before the anchor. -/
def spliceManual (tr : List EngEvent) (t : ℕ) (anchor newAct : String)
    (dBase dSpread : ℕ) : List EngEvent × ℕ :=
  match tr.findIdx? (fun e => e.activity = anchor) with
  | some idx =>
    if 0 < idx then
      match tr.get? (idx - 1) with
      | some atEv =>
        let (q, t) := mbStep t
        let ts := addMinutes atEv.timestamp ((dBase + jsRoundNat (q * (dSpread : ℚ)) : ℕ) : ℚ)
        let (res, t) := pickResource (some .MANUAL) t
        (spliceOne tr idx
          { case_id := atEv.case_id, activity := newAct, timestamp := ts,
            actor := some .MANUAL, tool := some (toolFromActivity newAct),
            resource := res, outcome := some .REWORK, issue_family := some .donnees }, t)
      | none => (tr, t)
    else (tr, t)
  | none => (tr, t)

/-- The rework-cycle splicing loop of `injectAsIsNoise` (`for i in
0..loops-1`), counting down on the remaining iterations: each iteration
splices a `{transfer, zoom}` pair at `insertAt`, the final `zoom` repeat is
marked OK with no issue family, earlier ones ISSUE with the triggering
cause. -/
def reworkSplices (cause : IssueFamily) :
    ℕ → List EngEvent → ℕ → ℕ → List EngEvent × ℕ
  | 0, tr, _, t => (tr, t)
  | n + 1, tr, pos, t =>
    match tr.get? (pos - 1) with
    | none => (tr, t)
    | some prev =>
      let (qa, t) := mbStep t
      let t1 := addMinutes prev.timestamp ((20 + jsRoundNat (qa * 50) : ℕ) : ℚ)
      let (qb, t) := mbStep t
      let t2 := addMinutes t1 ((60 + jsRoundNat (qb * 150) : ℕ) : ℚ)
      let (res1, t) := pickResource (some .BM) t
      let (res2, t) := pickResource (some .SIMU) t
      let isLast := n = 0
      let ev1 : EngEvent :=
        { case_id := prev.case_id, activity := "BM - Pre-process (Transfert déformé STL/IN2)",
          timestamp := t1, actor := some .BM,
          tool := some (toolFromActivity "BM - Pre-process (Transfert déformé STL/IN2)"),
          resource := res1, outcome := some .REWORK, issue_family := some cause }
      let ev2 : EngEvent :=
        { case_id := prev.case_id, activity := "SIMU - FLOW-3D (Remplissage «zoom»)",
          timestamp := t2, actor := some .SIMU,
          tool := some (toolFromActivity "SIMU - FLOW-3D (Remplissage «zoom»)"),
          resource := res2, outcome := some (if isLast then .OK else .ISSUE),
          issue_family := if isLast then none else some cause }
      reworkSplices cause n (tr.take pos ++ [ev1, ev2] ++ tr.drop pos) (pos + 2) t

/-- The uncontrolled-rework-loop block of `injectAsIsNoise` (entered when
`rnd() < pUncontrolledLoop`): fires only when the `zoom` activity occurs
after the `transfer` activity; marks the trigger ISSUE with a random cause
and splices `1 + Math.floor(rnd() * clamp(maxLoops, 1, 3))` rework
cycles. -/
def applyLoop (tr : List EngEvent) (t : ℕ) (maxLoops : ℕ) : List EngEvent × ℕ :=
  let zoomIdx := tr.findIdx? (fun e => e.activity = "SIMU - FLOW-3D (Remplissage «zoom»)")
  let transferIdx := tr.findIdx? (fun e => e.activity = "BM - Pre-process (Transfert déformé STL/IN2)")
  match zoomIdx, transferIdx with
  | some z, some tf =>
    if tf < z then
      let (cause, t) := randomIssueFamily t
      let tr := match tr.get? z with
        | some ev => tr.set z { ev with outcome := some .ISSUE, issue_family := some cause }
        | none => tr
      let (ql, t) := mbStep t
      let loops := 1 + ratFloorNat (ql * clamp (maxLoops : ℚ) 1 3)
      reworkSplices cause loops tr (z + 1) t
    else (tr, t)
  | _, _ => (tr, t)

/-- `injectAsIsNoise`: the three independent gate-skip draws, the two
manual-transfer draws (`pManual`, then `pManual * 0.8`), the
uncontrolled-loop draw, and the final re-sort by timestamp.  Every
probability draw consumes its RNG value even when the perturbation does not
fire. -/
def injectAsIsNoise (base : List EngEvent) (t : ℕ)
    (pSkipGate pManual pUncontrolledLoop : ℚ) (maxLoops : ℕ) :
    List EngEvent × ℕ :=
  let (q1, t) := mbStep t
  let tr := if q1 < pSkipGate then
    base.filter (fun e => e.activity ≠ "Gate 1 - Validation STL") else base
  let (q2, t) := mbStep t
  let tr := if q2 < pSkipGate then
    tr.filter (fun e => e.activity ≠ "Gate 2 - Validation CSV (débit)") else tr
  let (q3, t) := mbStep t
  let tr := if q3 < pSkipGate then
    tr.filter (fun e => e.activity ≠ "Gate 3 - Validation transfert déformé") else tr
  let (q4, t) := mbStep t
  let (tr, t) := if q4 < pManual then
    spliceManual tr t "SIMU - FLOW-3D (Verse «360»)" "Manual - Export/Convert (format)" 10 35
    else (tr, t)
  let (q5, t) := mbStep t
  let (tr, t) := if q5 < pManual * (4/5) then
    spliceManual tr t "SIMU - FLOW-3D (Remplissage «zoom»)" "Manual - Sync deformation (STL/IN2)" 12 40
    else (tr, t)
  let (q6, t) := mbStep t
  let (tr, t) := if q6 < pUncontrolledLoop then applyLoop tr t maxLoops else (tr, t)
  (sortByTs tr, t)

structure SimParams where
  nCases : ℕ
  seed : ℕ
  pSkipGate : ℚ
  pManual : ℚ
  pUncontrolledLoop : ℚ
  deriving DecidableEq

structure PairedLog where
  toBeEvents : List EngEvent
  asIsEvents : List EngEvent
  deriving DecidableEq

/-- `+new Date("2026-02-01T08:00:00Z")` in milliseconds
(`20485` days from the epoch to 2026-02-01, plus 8 hours). -/
def baseStartMs : ℚ := 1769932800000

/-- `simulatePairedLog`: one RNG stream from the 32-bit-coerced seed; per
case (ids `WF-00001`, …) a random start offset within five days, the TO-BE
trace, then the AS-IS perturbation with `maxLoops = 3`; both logs are
concatenated across cases. -/
def simulatePairedLog (args : SimParams) : PairedLog :=
  let t0 := args.seed % 4294967296
  let r := (List.range args.nCases).foldl
    (fun (acc : List EngEvent × List EngEvent × ℕ) i =>
      let caseId := "WF-" ++ padLeft (Nat.repr (i + 1)) 5
      let (q, t) := mbStep acc.2.2
      let start := addMinutes (some baseStartMs) ((jsRoundNat (q * 60 * 24 * 5) : ℕ) : ℚ)
      let (toBe, t) := genToBeCase caseId start t
      let (asIs, t) := injectAsIsNoise toBe t args.pSkipGate args.pManual args.pUncontrolledLoop 3
      (acc.1 ++ toBe, acc.2.1 ++ asIs, t))
    ([], [], t0)
  { toBeEvents := r.1, asIsEvents := r.2.1 }

/-! ### `lib/layout.ts`

The node computation of `buildFullProcessGraph` is embedded exactly.  Its
edge list consists purely of styling records (stroke widths, colours,
formatted label strings, opacity flags) consumed by the diagram widget; no
claim refers to it and it is omitted here (the spec's §1 places rendering
style out of scope). -/

/-- A generic stable insertion sort: an element is placed before the first
element it compares strictly less than, so elements that compare equal keep
their original relative order — the stability contract of
`Array.prototype.sort` with the corresponding comparator. -/
def insertStableBy {β : Type} (lt : β → β → Bool) (x : β) : List β → List β
  | [] => [x]
  | y :: ys => if lt x y then x :: y :: ys else y :: insertStableBy lt x ys

def sortStableBy {β : Type} (lt : β → β → Bool) (l : List β) : List β :=
  l.foldl (fun acc x => insertStableBy lt x acc) []

/-- `buildAdjacency`: incoming/outgoing edges per node, each list sorted by
descending count (comparator `(a, b) => b.count - a.count`, stable). -/
structure Adjacency where
  inMap : List (String × List DFGEdge)
  outMap : List (String × List DFGEdge)
  deriving DecidableEq

def buildAdjacency (dfg : DFG) : Adjacency :=
  let inMap := dfg.edges.foldl (fun m e => alSet e.target (alGetD m e.target [] ++ [e]) m) []
  let outMap := dfg.edges.foldl (fun m e => alSet e.source (alGetD m e.source [] ++ [e]) m) []
  { inMap := inMap.map (fun g => (g.1, sortStableBy (fun a b => b.count < a.count) g.2)),
    outMap := outMap.map (fun g => (g.1, sortStableBy (fun a b => b.count < a.count) g.2)) }

/-- `pickDefaultFocus`: the most visited node, or the fallback when there
are no nodes. -/
def pickDefaultFocus (nodes : List DFGNode) (fallback : String) : String :=
  match sortStableBy (fun a b : DFGNode => b.count < a.count) nodes with
  | [] => fallback
  | n :: _ => n.id

/-- `buildStageColumns(model, originX = 180, stepX = 280)`: one column per
activity plus the `4.5`-step fallback column. -/
def buildStageColumns (model : ProcessModel) (originX stepX : ℚ) : List ℚ :=
  (List.range model.activities.length).map (fun i => originX + (i : ℚ) * stepX)
    ++ [originX + (9/2) * stepX]

/-- One loop iteration of `nearestStageX`: strict improvement of the best
(column, distance) pair. -/
def nearStep (x : ℚ) (best : ℚ × ℚ) (c : ℚ) : ℚ × ℚ :=
  let d := |x - c|
  if d < best.2 then (c, d) else best

/-- `nearestStageX`: the column at minimal absolute distance from `x`,
scanning left to right with strict improvement (ties keep the earlier
column).  JS yields `undefined` for an empty column list (the app never
passes one); we return `0` there. -/
def nearestStageX (stageCols : List ℚ) (x : ℚ) : ℚ :=
  match stageCols with
  | [] => 0
  | c0 :: _ => (stageCols.foldl (nearStep x) (c0, |x - c0|)).1

/-- `stageIndex`: `model.activities.indexOf(activity)`, `-1` when absent. -/
def stageIndex (model : ProcessModel) (activity : String) : ℤ :=
  match model.activities.findIdx? (fun a => a = activity) with
  | some i => (i : ℤ)
  | none => -1

/-- `actorLaneBase` (`undefined` actor falls to the default `520`). -/
def actorLaneBase : Option Actor → ℚ
  | some .BE => 90
  | some .GATE => 260
  | some .BM => 430
  | some .MANUAL => 520
  | some .SIMU => 650
  | some .IPT => 900
  | none => 520

structure RFNodeData where
  label : String
  count : ℕ
  actor : Option Actor
  eff : ℕ
  cases : ℕ
  inDeg : ℕ
  outDeg : ℕ
  isFocus : Bool
  deriving DecidableEq

structure RFNode where
  id : String
  nodeType : String
  position : Pos
  data : RFNodeData
  deriving DecidableEq

/-- The single forward push-down pass of `resolveOverlaps` over one sorted
column: each node whose `y` falls within `minGap` of its (already adjusted)
predecessor is moved down to `prev.y + minGap`. -/
def pushDownAux (minGap : ℚ) (prev : RFNode) : List RFNode → List RFNode
  | [] => []
  | cur :: rest =>
    let cur' :=
      if cur.position.y < prev.position.y + minGap then
        { cur with position := { cur.position with y := prev.position.y + minGap } }
      else cur
    cur' :: pushDownAux minGap cur' rest

def pushDown (minGap : ℚ) : List RFNode → List RFNode
  | [] => []
  | a :: rest => a :: pushDownAux minGap a rest

/-- `resolveOverlaps(nodes, stageCols, minGap = 120)`: group nodes by their
nearest column, sort each column by `y` (stable), push down overlaps, and
concatenate the columns in map insertion order. -/
def resolveOverlaps (nodes : List RFNode) (stageCols : List ℚ) (minGap : ℚ) : List RFNode :=
  let byCol : List (ℚ × List RFNode) :=
    nodes.foldl
      (fun m n =>
        let cx := nearestStageX stageCols n.position.x
        alSet cx (alGetD m cx [] ++ [n]) m) []
  byCol.foldl
    (fun out g =>
      out ++ pushDown minGap (sortStableBy (fun a b : RFNode => a.position.y < b.position.y) g.2)) []

/-- Code-point lexicographic order on strings, the deterministic stand-in
for `a.localeCompare(b)` in the default locale. -/
def charsLt : List Char → List Char → Bool
  | [], [] => false
  | [], _ :: _ => true
  | _ :: _, [] => false
  | a :: as, b :: bs => if a < b then true else if b < a then false else charsLt as bs

def strLtB (a b : String) : Bool := charsLt a.data b.data

/-- The per-actor lane comparator of `buildFullProcessGraph` (stage index
first, `-1` mapped to `999`, then the name order). -/
def laneLt (model : ProcessModel) (a b : String) : Bool :=
  let ia := stageIndex model a
  let ib := stageIndex model b
  if ia ≠ ib then
    decide ((if ia = -1 then 999 else ia) < (if ib = -1 then 999 else ib))
  else strLtB a b

/-- `actorFromActivity(n.id) ?? "UNKNOWN"` as the `byActor` map key. -/
def actorKey : Option Actor → String
  | some a => actorName a
  | none => "UNKNOWN"

/-- The arguments of `buildFullProcessGraph` that its node computation
reads.  (`allowedEdges`, `edgeStats`, `labelMode`, `minEdgeCount` and
`highlightK` feed only the omitted edge-styling records.)  `resByAct` and
`casesByAct` are the `stats` maps of distinct resources / case ids per
activity, a JS `Set` being a duplicate-free list. -/
structure FullGraphArgs where
  model : ProcessModel
  stageCols : List ℚ
  dfg : DFG
  lockColumns : Bool
  autoSeparate : Bool
  manualPos : List (String × Pos)
  selectedNodeId : Option String
  resByAct : List (String × List String)
  casesByAct : List (String × List String)
  deriving DecidableEq

/-- The `rfNodes` array of `buildFullProcessGraph`: per DFG node, the lane
position within its actor group, the stage-column base position, the manual
override if present, and the lock-columns snap
`{ x: nearestStageX(stageCols, pos.x), y: pos.y }`. -/
def mkRfNodes (args : FullGraphArgs) : List RFNode :=
  let adj := buildAdjacency args.dfg
  let byActor : List (String × List String) :=
    args.dfg.nodes.foldl
      (fun m n =>
        let k := actorKey (actorFromActivity n.id)
        alSet k (alGetD m k [] ++ [n.id]) m) []
  let byActor := byActor.map (fun g => (g.1, sortStableBy (laneLt args.model) g.2))
  args.dfg.nodes.map (fun n =>
    let actor := actorFromActivity n.id
    let sIdx := stageIndex args.model n.id
    let laneArr := alGetD byActor (actorKey actor) []
    let lanePos : ℕ :=
      match laneArr.findIdx? (fun s => s = n.id) with
      | some i => i
      | none => 0
    let baseX :=
      match args.stageCols.get? (max 0 sIdx).toNat with
      | some c => c
      | none => (args.stageCols.getLast?).getD 0
    let baseY := actorLaneBase actor + (Nat.cast lanePos : ℚ) * 120
    let pos : Pos :=
      match alGet? args.manualPos n.id with
      | some mp => { x := mp.x, y := mp.y }
      | none => { x := baseX, y := baseY }
    let snapped : Pos :=
      if args.lockColumns then { x := nearestStageX args.stageCols pos.x, y := pos.y }
      else pos
    { id := n.id, nodeType := "celonisNode", position := snapped,
      data := { label := n.id, count := n.count, actor := actor,
                eff := ((alGet? args.resByAct n.id).map List.length).getD 0,
                cases := ((alGet? args.casesByAct n.id).map List.length).getD 0,
                inDeg := (alGetD adj.inMap n.id []).length,
                outDeg := (alGetD adj.outMap n.id []).length,
                isFocus := decide (args.selectedNodeId = some n.id) } })

/-- The node output of `buildFullProcessGraph`: overlap resolution runs only
when `autoSeparate` is on **and** no manual position override exists
(`Object.keys(manualPos).length === 0`). -/
def buildFullProcessGraph (args : FullGraphArgs) : List RFNode :=
  let rfNodes := mkRfNodes args
  if args.autoSeparate ∧ args.manualPos.length = 0 then
    resolveOverlaps rfNodes args.stageCols 120
  else rfNodes

/-! ### `lib/playback.ts` -/

/-- `easeInOutQuad`. -/
def easeInOutQuad (t : ℚ) : ℚ :=
  if t < 1/2 then 2 * t * t else 1 - (-2 * t + 2)^2 / 2

/-- `bezier2`: quadratic Bezier point. -/
def bezier2 (p0 p1 p2 : Pos) (t : ℚ) : Pos :=
  let u := 1 - t
  { x := u * u * p0.x + 2 * u * t * p1.x + t * t * p2.x,
    y := u * u * p0.y + 2 * u * t * p1.y + t * t * p2.y }

/-- A rendered node as `nodeCenter` reads it: position plus the optional
measured extents (`width ?? measured?.width ?? 310`, same for height). -/
structure PlaybackNode where
  id : String
  position : Pos
  width : Option ℚ
  height : Option ℚ
  measuredWidth : Option ℚ
  measuredHeight : Option ℚ
  deriving DecidableEq

/-- `nodeCenter`: centre of the first node with the given id, `null` when
absent. -/
def nodeCenter (nodes : List PlaybackNode) (id : String) : Option Pos :=
  match nodes.find? (fun n => n.id = id) with
  | none => none
  | some n =>
    let w := n.width.getD (n.measuredWidth.getD 310)
    let h := n.height.getD (n.measuredHeight.getD 84)
    some { x := n.position.x + w / 2, y := n.position.y + h / 2 }

/-- `computePlaybackTrace`: one case's events in chronological order. -/
def computePlaybackTrace (events : List EngEvent) (caseId : String) : List EngEvent :=
  sortByTs (events.filter (fun e => e.case_id = caseId))

/-- One animation segment.  The quadratic-Bezier control point `ctrl`
(`curveCtrl`) is omitted: it involves the Euclidean length `√(dx²+dy²)`,
irrational in general, and no claim refers to it; `durMs` and the endpoints
are embedded exactly.  `durMs = none` models the `NaN` produced by an
unparseable timestamp. -/
structure Segment where
  segFrom : Pos
  segTo : Pos
  durMs : Option ℚ
  deriving DecidableEq

/-- `computePlaybackSegments(trace, nodes, playSpeed)`: one segment per
adjacent pair whose two node centres exist, with
`durMs = clamp(220, 1600, (260 + Math.max(0, dtMin) * 8) / Math.max(0.4, playSpeed))`
— note the argument order of this `clamp` call against
`clamp(n, a, b) = max(a, min(b, n))`. -/
def computePlaybackSegments (trace : List EngEvent) (nodes : List PlaybackNode)
    (playSpeed : ℚ) : List Segment :=
  if trace.length < 2 then []
  else
    (adjPairs trace).foldl
      (fun segs p =>
        match nodeCenter nodes p.1.activity, nodeCenter nodes p.2.activity with
        | some f, some t =>
          let durMs := (dtMinutes p.1 p.2).map
            (fun dtMin => clamp 220 1600 ((260 + max 0 dtMin * 8) / max (2/5) playSpeed))
          segs ++ [{ segFrom := f, segTo := t, durMs := durMs }]
        | _, _ => segs) []

end PM

namespace PM

/-! ### Association-list facts used by the characterisations -/

variable {κ α : Type} [DecidableEq κ]

theorem alGet?_mem {m : List (κ × α)} {k : κ} {v : α}
    (h : alGet? m k = some v) : (k, v) ∈ m := by
  induction m with
  | nil => simp [alGet?] at h
  | cons p rest ih =>
    by_cases hp : p.1 = k
    · rw [alGet?, if_pos hp] at h
      have hv : v = p.2 := Option.some.inj h.symm
      subst hv
      exact hp ▸ List.mem_cons_self _ _
    · rw [alGet?, if_neg hp] at h
      exact List.mem_cons_of_mem _ (ih h)

theorem mem_alKeys_of_isSome {m : List (κ × α)} {k : κ}
    (h : (alGet? m k).isSome) : k ∈ alKeys m := by
  by_contra hk
  rw [← alGet?_eq_none_iff] at hk
  rw [hk] at h
  simp at h

/-! ### Characterisation of `computeEdgeStats`'s collection fold -/

/-- The contribution of one adjacent pair to the durations recorded under
key `k`: its finite non-negative duration when the pair bears that key,
nothing otherwise. -/
def contribDt (k : String) (p : EngEvent × EngEvent) : List ℚ :=
  if edgeKey p.1.activity p.2.activity = k then (goodDt p.1 p.2).toList else []

/-- The durations `computeEdgeStats` aggregates under key `k`, read off the
grouped log directly: one entry per adjacent pair with that key whose
duration is finite and non-negative, in traversal order. -/
def observedDurations (events : List EngEvent) (k : String) : List ℚ :=
  (groupByCase events).flatMap (fun g => (adjPairs g.2).flatMap (contribDt k))

theorem durStep_getD (m : List (String × List ℚ)) (p : EngEvent × EngEvent) (k : String) :
    alGetD (durStep m p) k [] = alGetD m k [] ++ contribDt k p := by
  by_cases h : edgeKey p.1.activity p.2.activity = k
  · simp only [durStep, contribDt, if_pos h, h, alGetD]
    rw [alGet?_set_self]
    rcases goodDt p.1 p.2 with _ | d <;> simp
  · simp only [durStep, contribDt, if_neg h, alGetD]
    rw [alGet?_set_ne h]
    simp

theorem foldl_durStep_getD (ps : List (EngEvent × EngEvent))
    (m : List (String × List ℚ)) (k : String) :
    alGetD (ps.foldl durStep m) k [] = alGetD m k [] ++ ps.flatMap (contribDt k) := by
  induction ps generalizing m with
  | nil => simp
  | cons p ps ih =>
    rw [List.foldl_cons, List.flatMap_cons, ih, durStep_getD, List.append_assoc]

theorem foldl_cases_getD (gs : List (String × List EngEvent))
    (m : List (String × List ℚ)) (k : String) :
    alGetD (gs.foldl (fun m g => (adjPairs g.2).foldl durStep m) m) k [] =
      alGetD m k [] ++ gs.flatMap (fun g => (adjPairs g.2).flatMap (contribDt k)) := by
  induction gs generalizing m with
  | nil => simp
  | cons g gs ih =>
    rw [List.foldl_cons, List.flatMap_cons, ih, foldl_durStep_getD, List.append_assoc]

theorem collect_getD (events : List EngEvent) (k : String) :
    alGetD (collectDurations events) k [] = observedDurations events k := by
  unfold collectDurations observedDurations
  rw [foldl_cases_getD]
  rfl

theorem mem_alKeys_foldl_durStep (ps : List (EngEvent × EngEvent))
    (m : List (String × List ℚ)) (k : String) :
    k ∈ alKeys (ps.foldl durStep m) ↔
      k ∈ alKeys m ∨ ∃ p ∈ ps, edgeKey p.1.activity p.2.activity = k := by
  induction ps generalizing m with
  | nil => simp
  | cons p ps ih =>
    rw [List.foldl_cons, ih]
    simp only [durStep, mem_alKeys_set, List.mem_cons]
    constructor
    · rintro (⟨h | h⟩ | h)
      · exact Or.inl h
      · exact Or.inr ⟨p, Or.inl rfl, h.symm⟩
      · rcases h with ⟨q, hq, hkq⟩
        exact Or.inr ⟨q, Or.inr hq, hkq⟩
    · rintro (h | ⟨q, hq | hq, hkq⟩)
      · exact Or.inl (Or.inl h)
      · exact Or.inl (Or.inr (hq ▸ hkq.symm))
      · exact Or.inr ⟨q, hq, hkq⟩

theorem mem_alKeys_foldl_cases (gs : List (String × List EngEvent))
    (m : List (String × List ℚ)) (k : String) :
    k ∈ alKeys (gs.foldl (fun m g => (adjPairs g.2).foldl durStep m) m) ↔
      k ∈ alKeys m ∨
        ∃ g ∈ gs, ∃ p ∈ adjPairs g.2, edgeKey p.1.activity p.2.activity = k := by
  induction gs generalizing m with
  | nil => simp
  | cons g gs ih =>
    rw [List.foldl_cons, ih, mem_alKeys_foldl_durStep]
    simp only [List.mem_cons]
    constructor
    · rintro ((h | h) | h)
      · exact Or.inl h
      · exact Or.inr ⟨g, Or.inl rfl, h⟩
      · rcases h with ⟨g', hg', hp⟩
        exact Or.inr ⟨g', Or.inr hg', hp⟩
    · rintro (h | ⟨g', hg' | hg', hp⟩)
      · exact Or.inl (Or.inl h)
      · exact Or.inl (Or.inr (hg' ▸ hp))
      · exact Or.inr ⟨g', hg', hp⟩

theorem mem_keys_collect (events : List EngEvent) (k : String) :
    k ∈ alKeys (collectDurations events) ↔
      ∃ g ∈ groupByCase events, ∃ p ∈ adjPairs g.2,
        edgeKey p.1.activity p.2.activity = k := by
  unfold collectDurations
  rw [mem_alKeys_foldl_cases]
  simp [alKeys]

theorem nodup_foldl_durStep (ps : List (EngEvent × EngEvent))
    (m : List (String × List ℚ)) (h : (alKeys m).Nodup) :
    (alKeys (ps.foldl durStep m)).Nodup := by
  induction ps generalizing m with
  | nil => exact h
  | cons p ps ih =>
    rw [List.foldl_cons]
    exact ih _ (alKeys_nodup_set _ _ _ h)

theorem nodup_foldl_cases (gs : List (String × List EngEvent))
    (m : List (String × List ℚ)) (h : (alKeys m).Nodup) :
    (alKeys (gs.foldl (fun m g => (adjPairs g.2).foldl durStep m) m)).Nodup := by
  induction gs generalizing m with
  | nil => exact h
  | cons g gs ih =>
    rw [List.foldl_cons]
    exact ih _ (nodup_foldl_durStep _ _ h)

theorem nodup_collect (events : List EngEvent) :
    (alKeys (collectDurations events)).Nodup :=
  nodup_foldl_cases _ [] (by simp [alKeys])

theorem collect_entry {events : List EngEvent} {k : String} {arr : List ℚ}
    (h : (k, arr) ∈ collectDurations events) :
    arr = observedDurations events k := by
  have hg := alGet?_of_mem_nodup (nodup_collect events) h
  have harr : alGetD (collectDurations events) k [] = arr := by
    rw [alGetD, hg]; rfl
  rw [← harr, collect_getD]

theorem edgeStats_entry {events : List EngEvent} {k : String} {st : EdgeStats}
    (h : (k, st) ∈ computeEdgeStats events) :
    st = statsOfDurations (observedDurations events k) := by
  unfold computeEdgeStats at h
  rcases List.mem_map.1 h with ⟨g, hg, heq⟩
  have h1 : g.1 = k := congrArg Prod.fst heq
  have h2 : statsOfDurations g.2 = st := congrArg Prod.snd heq
  subst h1
  rw [← h2, collect_entry hg]

theorem edgeStats_key_iff (events : List EngEvent) (k : String) :
    (∃ st, (k, st) ∈ computeEdgeStats events) ↔
      ∃ g ∈ groupByCase events, ∃ p ∈ adjPairs g.2,
        edgeKey p.1.activity p.2.activity = k := by
  rw [← mem_keys_collect]
  constructor
  · rintro ⟨st, hst⟩
    unfold computeEdgeStats at hst
    rcases List.mem_map.1 hst with ⟨g, hg, heq⟩
    have h1 : g.1 = k := congrArg Prod.fst heq
    exact h1 ▸ List.mem_map_of_mem Prod.fst hg
  · intro hk
    rcases ho : alGet? (collectDurations events) k with _ | arr
    · exact absurd ((alGet?_eq_none_iff _ _).1 ho) (by simpa using hk)
    · exact ⟨statsOfDurations arr,
        List.mem_map_of_mem (fun g => (g.1, statsOfDurations g.2)) (alGet?_mem ho)⟩

theorem observed_nonneg (events : List EngEvent) (k : String) :
    ∀ d ∈ observedDurations events k, 0 ≤ d := by
  intro d hd
  unfold observedDurations at hd
  rcases List.mem_flatMap.1 hd with ⟨g, hg, hd2⟩
  rcases List.mem_flatMap.1 hd2 with ⟨p, hp, hd3⟩
  unfold contribDt at hd3
  by_cases h : edgeKey p.1.activity p.2.activity = k
  · rw [if_pos h] at hd3
    unfold goodDt at hd3
    rcases hdt : dtMinutes p.1 p.2 with _ | x
    · rw [hdt] at hd3; simp at hd3
    · rw [hdt] at hd3
      dsimp only at hd3
      by_cases hx : 0 ≤ x
      · rw [if_pos hx] at hd3
        simp at hd3
        exact hd3 ▸ hx
      · rw [if_neg hx] at hd3; simp at hd3
  · rw [if_neg h] at hd3; simp at hd3

/-! ### Facts about `statsOfDurations` -/

theorem foldl_add_eq_sum (l : List ℚ) (a : ℚ) : l.foldl (· + ·) a = a + l.sum := by
  induction l generalizing a with
  | nil => simp
  | cons x l ih => simp [ih, add_assoc]

theorem statsOf_count (arr : List ℚ) : (statsOfDurations arr).count = arr.length :=
  (List.perm_insertionSort _ arr).length_eq

theorem statsOf_total (arr : List ℚ) : (statsOfDurations arr).totalMin = arr.sum := by
  show (List.insertionSort (· ≤ ·) arr).foldl (· + ·) 0 = arr.sum
  rw [foldl_add_eq_sum, zero_add, (List.perm_insertionSort _ arr).sum_eq]

/-! ### Characterisation of `computeDeviationTime` -/

/-- The deviation-time contribution of one adjacent pair: its finite
non-negative duration when the pair's edge key is disallowed. -/
def devContrib (allowed : List String) (p : EngEvent × EngEvent) : List ℚ :=
  match goodDt p.1 p.2 with
  | none => []
  | some d => if allowed.contains (edgeKey p.1.activity p.2.activity) then [] else [d]

theorem foldl_dev_sum (allowed : List String) (ps : List (EngEvent × EngEvent)) (total : ℚ) :
    ps.foldl (fun (total : ℚ) p =>
      let k := edgeKey p.1.activity p.2.activity
      match goodDt p.1 p.2 with
      | none => total
      | some d => if allowed.contains k then total else total + d) total =
    total + (ps.flatMap (devContrib allowed)).sum := by
  induction ps generalizing total with
  | nil => simp
  | cons p ps ih =>
    rw [List.foldl_cons, List.flatMap_cons, ih]
    dsimp only
    rcases hdt : goodDt p.1 p.2 with _ | d
    · simp [devContrib, hdt, List.sum_append]
    · by_cases h : edgeKey p.1.activity p.2.activity ∈ allowed
      · simp [devContrib, hdt, h, List.sum_append]
      · simp [devContrib, hdt, h, List.sum_append, add_assoc]

theorem foldl_dev_cases (allowed : List String) (gs : List (String × List EngEvent))
    (total : ℚ) :
    gs.foldl (fun total g =>
      (adjPairs g.2).foldl (fun (total : ℚ) p =>
        let k := edgeKey p.1.activity p.2.activity
        match goodDt p.1 p.2 with
        | none => total
        | some d => if allowed.contains k then total else total + d) total) total =
    total + (gs.flatMap (fun g => (adjPairs g.2).flatMap (devContrib allowed))).sum := by
  induction gs generalizing total with
  | nil => simp
  | cons g gs ih =>
    rw [List.foldl_cons, List.flatMap_cons, ih, foldl_dev_sum]
    rw [List.sum_append, add_assoc]

theorem deviation_eq (events : List EngEvent) (allowed : List String) :
    computeDeviationTime events allowed =
      ((groupByCase events).flatMap
        (fun g => (adjPairs g.2).flatMap (devContrib allowed))).sum := by
  unfold computeDeviationTime
  rw [foldl_dev_cases, zero_add]

/-! ### Counter sums for the DFG edge-count bound -/

/-- Sum of the values of a counter map. -/
def alSum {γ : Type} (m : List (γ × ℕ)) : ℕ := (m.map (fun p => p.2)).sum

theorem alGetD_cons_ne {p : κ × α} {k : κ} (h : p.1 ≠ k) (rest : List (κ × α)) (d : α) :
    alGetD (p :: rest) k d = alGetD rest k d := by
  simp [alGetD, alGet?, h]

theorem alSum_bump (k : κ) (m : List (κ × ℕ)) : alSum (bump k m) = alSum m + 1 := by
  induction m with
  | nil => simp [bump, alSet, alSum, alGetD, alGet?]
  | cons p rest ih =>
    by_cases hp : p.1 = k
    · have hg : alGetD (p :: rest) k 0 = p.2 := by simp [alGetD, alGet?, hp]
      simp only [bump, hg, alSet, if_pos hp]
      simp [alSum]
      omega
    · have hg : alGetD (p :: rest) k 0 = alGetD rest k 0 := alGetD_cons_ne hp _ _
      simp only [bump, hg, alSet, if_neg hp]
      simp only [bump] at ih
      simp [alSum] at ih ⊢
      omega

theorem alSum_foldl_bump {β : Type} (f : β → κ) (ps : List β) (m : List (κ × ℕ)) :
    alSum (ps.foldl (fun m p => bump (f p) m) m) = alSum m + ps.length := by
  induction ps generalizing m with
  | nil => simp
  | cons p ps ih =>
    rw [List.foldl_cons, ih, alSum_bump]
    simp
    omega

theorem alSum_foldl_edgeCases (gs : List (String × List EngEvent))
    (m : List (String × ℕ)) :
    alSum (gs.foldl (fun m g => (adjPairs g.2).foldl
        (fun m p => bump (edgeKey p.1.activity p.2.activity) m) m) m) =
      alSum m + (gs.map (fun g => (adjPairs g.2).length)).sum := by
  induction gs generalizing m with
  | nil => simp
  | cons g gs ih =>
    rw [List.foldl_cons, ih,
      alSum_foldl_bump (fun p : EngEvent × EngEvent => edgeKey p.1.activity p.2.activity)]
    simp
    omega

theorem adjPairs_length {β : Type} (l : List β) : (adjPairs l).length = l.length - 1 := by
  unfold adjPairs
  rw [List.length_zip, List.length_tail]
  omega

/-! ### Non-emptiness of the case groups -/

theorem length_insertEv (x : EngEvent) (l : List EngEvent) :
    (insertEv x l).length = l.length + 1 := by
  induction l with
  | nil => rfl
  | cons y ys ih =>
    unfold insertEv
    by_cases h : tsLt x.timestamp y.timestamp
    · simp [h]
    · simp [h, ih]

theorem length_sortByTs (l : List EngEvent) : (sortByTs l).length = l.length := by
  suffices h : ∀ (l acc : List EngEvent),
      (l.foldl (fun acc x => insertEv x acc) acc).length = acc.length + l.length by
    simpa [sortByTs] using h l []
  intro l
  induction l with
  | nil => intro acc; simp
  | cons x xs ih =>
    intro acc
    rw [List.foldl_cons, ih, length_insertEv, List.length_cons]
    omega

theorem groupRaw_ne_nil (events : List EngEvent) :
    ∀ (m : List (String × List EngEvent)), (∀ g ∈ m, g.2 ≠ []) →
      ∀ g ∈ events.foldl
          (fun m e => alSet e.case_id (alGetD m e.case_id [] ++ [e]) m) m,
        g.2 ≠ [] := by
  induction events with
  | nil => intro m hm; simpa using hm
  | cons e events ih =>
    intro m hm
    rw [List.foldl_cons]
    apply ih
    intro g hg
    rcases mem_of_mem_alSet hg with h | h
    · rw [h]; simp
    · exact hm g h

theorem groupByCase_ne_nil (events : List EngEvent) :
    ∀ g ∈ groupByCase events, g.2 ≠ [] := by
  intro g hg
  unfold groupByCase at hg
  rcases List.mem_map.1 hg with ⟨g0, hg0, hge⟩
  have h0 : g0.2 ≠ [] := groupRaw_ne_nil events [] (by simp) g0 hg0
  rw [← hge]
  intro hh
  apply h0
  have hl := length_sortByTs g0.2
  have : (sortByTs g0.2).length = 0 := by
    rw [show sortByTs g0.2 = [] from hh]
    rfl
  rw [this] at hl
  exact List.length_eq_zero.1 hl.symm

/-! ### The lead-time collection fold -/

/-- The lead-time contribution of one case group: nothing for fewer than
two events, otherwise the finite non-negative lead time. -/
def caseLeadContrib (g : String × List EngEvent) : List ℚ :=
  if g.2.length < 2 then []
  else match caseLead g.2 with
    | some d => if 0 ≤ d then [d] else []
    | none => []

/-- The lead times `computeCaseLeadTimes` aggregates, read off the grouped
log directly. -/
def caseLeads (events : List EngEvent) : List ℚ :=
  (groupByCase events).flatMap caseLeadContrib

theorem foldl_leads (gs : List (String × List EngEvent)) (acc : List ℚ) :
    gs.foldl (fun acc g =>
      if g.2.length < 2 then acc
      else match caseLead g.2 with
        | some d => if 0 ≤ d then acc ++ [d] else acc
        | none => acc) acc = acc ++ gs.flatMap caseLeadContrib := by
  induction gs generalizing acc with
  | nil => simp
  | cons g gs ih =>
    rw [List.foldl_cons, ih, List.flatMap_cons, ← List.append_assoc]
    congr 1
    unfold caseLeadContrib
    by_cases h : g.2.length < 2
    · simp [h]
    · rw [if_neg h, if_neg h]
      rcases hcl : caseLead g.2 with _ | d
      · simp
      · by_cases hd : 0 ≤ d <;> simp [hd]

end PM

/-! ## Claim C1 — playback segment durations

A two-event trace with a zero time gap at `playSpeed = 1`: the formula value
`(260 + max(0, 0)·8) / max(0.4, 1) = 260` lies inside `[220, 1600]`, so the
spec's duration is `260 ms`.  The source calls `clamp(220, 1600, value)`
against the signature `clamp(n, a, b) = max(a, min(b, n))`, which evaluates
to `max(1600, min(value, 220)) = 1600` for every value — the call has the
value and bound arguments swapped (the repository's other call sites, e.g.
`curveCtrl`, pass the value first). -/

def playbackBugTrace : List PM.EngEvent :=
  [ { case_id := "c", activity := "A", timestamp := some 0, actor := none,
      tool := none, resource := none, outcome := none, issue_family := none }
  , { case_id := "c", activity := "B", timestamp := some 0, actor := none,
      tool := none, resource := none, outcome := none, issue_family := none } ]

def playbackBugNodes : List PM.PlaybackNode :=
  [ { id := "A", position := { x := 0, y := 0 }, width := none, height := none,
      measuredWidth := none, measuredHeight := none }
  , { id := "B", position := { x := 100, y := 0 }, width := none, height := none,
      measuredWidth := none, measuredHeight := none } ]

/-- C1: at the concrete failing input (two events zero minutes apart, node
centres present, `playSpeed = 1`) the code produces `durMs = 1600`, whereas
the claimed value — `(260 + max(0, dtMin)·8) / max(0.4, playSpeed)` clamped
into `[220, 1600]`, here `260`, used unchanged because it is inside the
range — differs from it.  The `clamp(220, 1600, ·)` call is argument-swapped
against `clamp(n, a, b)`, so the code's duration is the constant `1600`. -/
theorem C1_playback_duration_swapped_clamp_bug :
    (PM.computePlaybackSegments playbackBugTrace playbackBugNodes 1).map
        (fun s => s.durMs) = [some 1600] ∧
    PM.clamp ((260 + max 0 0 * 8) / max (2/5) 1) 220 1600 = 260 ∧
    (1600 : ℚ) ≠ 260 := by
  refine ⟨?_, ?_, by norm_num⟩
  · with_unfolding_all rfl
  · with_unfolding_all rfl

/-! ## Claim C2 — the zero-perturbation end-to-end scenario

With `seed = 7`, `nCases = 3` and all three probabilities zero, no
perturbation fires and the AS-IS log equals the TO-BE log event for event.
But the serialized TO-BE trace contains the seam transition
`Gate 2 - Validation CSV (débit) -> BE - Secteur (CATPart)` between the two
modelled branches, and that pair is **not** in `TO_BE.allowedEdges`: each of
the three cases contributes 13 transitions of which exactly one is
disallowed, so conformance is `round(36/39·100) = 92`, not the claimed
100 %. -/

def c2Params : PM.SimParams :=
  { nCases := 3, seed := 7, pSkipGate := 0, pManual := 0, pUncontrolledLoop := 0 }

/-- C2 (counterexample): in the claimed scenario the conformance of the
AS-IS log against the TO-BE allowed-edge set is not 100 %. -/
theorem C2_conformance_not_hundred :
    (PM.computeConformanceSummary (PM.simulatePairedLog c2Params).asIsEvents
      (PM.buildAllowedEdgeSet PM.TO_BE)).conformance ≠ 100 := by
  have h : (PM.computeConformanceSummary (PM.simulatePairedLog c2Params).asIsEvents
      (PM.buildAllowedEdgeSet PM.TO_BE)).conformance = 92 := by
    with_unfolding_all rfl
  rw [h]
  decide

/-- C2 (amended): with `seed = 7`, `nCases = 3` and all perturbation
probabilities zero, the AS-IS log is identical to the TO-BE log — in
particular every case's trace is activity-for-activity identical — and the
conformance summary of the AS-IS log against the TO-BE allowed-edge set is
92 % (39 transitions, 3 of them — one per case, the serialized
`Gate 2 -> BE - Secteur` seam between the model's two branches — outside
the allowed-edge set). -/
theorem C2_amended_identity_and_conformance_92 :
    (PM.simulatePairedLog c2Params).asIsEvents = (PM.simulatePairedLog c2Params).toBeEvents ∧
    ((PM.groupByCase (PM.simulatePairedLog c2Params).asIsEvents).map
        (fun g => (g.1, g.2.map (fun e => e.activity))) =
      (PM.groupByCase (PM.simulatePairedLog c2Params).toBeEvents).map
        (fun g => (g.1, g.2.map (fun e => e.activity)))) ∧
    PM.computeConformanceSummary (PM.simulatePairedLog c2Params).asIsEvents
        (PM.buildAllowedEdgeSet PM.TO_BE) =
      { conformance := 92, totalEdges := 39, badEdges := 3 } := by
  refine ⟨?_, ?_, ?_⟩
  · with_unfolding_all rfl
  · with_unfolding_all rfl
  · with_unfolding_all rfl

/-! ## Claim C3 — determinism of the simulator -/

/-- C3: `simulatePairedLog` is a pure function of its seed and parameters:
two calls with equal arguments return structurally identical paired logs —
the same case ids, activities, order, timestamps, resources, outcomes and
issue families (full record equality of both event lists).  The embedding
is deterministic by construction because the source derives every random
choice from the closure-local `mulberry32(seed)` stream, modelled here as
explicit state threading with no ambient state. -/
theorem C3_simulate_deterministic (a b : PM.SimParams) (h : a = b) :
    (PM.simulatePairedLog a).toBeEvents = (PM.simulatePairedLog b).toBeEvents ∧
    (PM.simulatePairedLog a).asIsEvents = (PM.simulatePairedLog b).asIsEvents := by
  subst h; exact ⟨rfl, rfl⟩

/-- Witness for C3 at a concrete parameter set. -/
theorem C3_simulate_deterministic_witness :
    (PM.simulatePairedLog c2Params).toBeEvents =
        (PM.simulatePairedLog c2Params).toBeEvents ∧
    (PM.simulatePairedLog c2Params).asIsEvents =
        (PM.simulatePairedLog c2Params).asIsEvents :=
  C3_simulate_deterministic c2Params c2Params rfl

/-! ## Claim C4 — conformance: vacuous case and rounding formula -/

/-- C4: on the empty log `computeConformanceSummary` returns 100 %
conformance with zero total and bad edges, for every allowed-edge set; and
whenever `totalEdges > 0` the conformance equals
`Math.round((totalEdges - badEdges) / totalEdges * 100)`. -/
theorem C4_conformance_vacuous_and_round :
    (∀ allowed, PM.computeConformanceSummary [] allowed =
      { conformance := 100, totalEdges := 0, badEdges := 0 }) ∧
    (∀ events allowed,
      0 < (PM.computeConformanceSummary events allowed).totalEdges →
      (PM.computeConformanceSummary events allowed).conformance =
        PM.jsRound ((((PM.computeConformanceSummary events allowed).totalEdges : ℚ) -
            ((PM.computeConformanceSummary events allowed).badEdges : ℚ)) /
          ((PM.computeConformanceSummary events allowed).totalEdges : ℚ) * 100)) := by
  constructor
  · intro allowed; rfl
  · intro events allowed h
    have h' : ¬ (PM.conformanceCounts events allowed).1 = 0 := by
      have h0 : 0 < (PM.conformanceCounts events allowed).1 := h
      omega
    exact if_neg h'

def c4Log : List PM.EngEvent :=
  [ { case_id := "c", activity := "A", timestamp := some 0, actor := none,
      tool := none, resource := none, outcome := none, issue_family := none }
  , { case_id := "c", activity := "B", timestamp := some 60000, actor := none,
      tool := none, resource := none, outcome := none, issue_family := none } ]

/-- Witness for C4's rounding clause at a concrete one-transition log. -/
theorem C4_conformance_round_witness :
    0 < (PM.computeConformanceSummary c4Log []).totalEdges ∧
    (PM.computeConformanceSummary c4Log []).conformance =
      PM.jsRound ((((PM.computeConformanceSummary c4Log []).totalEdges : ℚ) -
          ((PM.computeConformanceSummary c4Log []).badEdges : ℚ)) /
        ((PM.computeConformanceSummary c4Log []).totalEdges : ℚ) * 100) :=
  ⟨by with_unfolding_all decide,
   C4_conformance_vacuous_and_round.2 c4Log [] (by with_unfolding_all decide)⟩

/-! ## Claim C5 — DFG edge-count bound -/

/-- C5: the DFG's edge counts sum to exactly the number of observed
adjacent transitions — for every log, the sum over `buildDFG`'s edges of
`count` equals the sum over the case groups of (number of events − 1), and
every case group is non-empty (so the per-case term is the honest
`length − 1`, never a clamped negative). -/
theorem C5_dfg_edge_count_sum (events : List PM.EngEvent) :
    (((PM.buildDFG events).edges.map (fun e => e.count)).sum =
      ((PM.groupByCase events).map (fun g => g.2.length - 1)).sum) ∧
    ∀ g ∈ PM.groupByCase events, g.2 ≠ [] := by
  constructor
  · have h1 : ((PM.buildDFG events).edges.map (fun e => e.count)) =
        ((PM.groupByCase events).foldl
          (fun m g => (PM.adjPairs g.2).foldl
            (fun m p => PM.bump (PM.edgeKey p.1.activity p.2.activity) m) m)
          []).map (fun g => g.2) := by
      show (List.map _ (List.map _ _)) = _
      rw [List.map_map]
      rfl
    rw [h1]
    show PM.alSum _ = _
    rw [PM.alSum_foldl_edgeCases]
    simp [PM.adjPairs_length, PM.alSum]
  · exact PM.groupByCase_ne_nil events

/-! ## Claim C6 — negative and non-finite durations are excluded -/

/-- C6: `computeEdgeStats` aggregates, for each key, exactly the adjacent
pair durations that are finite and non-negative (`observedDurations`'s
filter) — the whole statistics record is computed from that filtered list,
so an excluded duration contributes to no count, total, mean, median or
p95, and in particular the count only counts surviving durations (an
excluded one is dropped, not replaced by zero, and no error is raised:
every function here is total).  Likewise `computeDeviationTime` sums
exactly the finite non-negative durations of disallowed transitions. -/
theorem C6_bad_durations_excluded :
    (∀ events k st, (k, st) ∈ PM.computeEdgeStats events →
        st = PM.statsOfDurations (PM.observedDurations events k) ∧
        st.count = (PM.observedDurations events k).length ∧
        st.totalMin = (PM.observedDurations events k).sum ∧
        ∀ d ∈ PM.observedDurations events k, 0 ≤ d) ∧
    (∀ events allowed, PM.computeDeviationTime events allowed =
        ((PM.groupByCase events).flatMap
          (fun g => (PM.adjPairs g.2).flatMap (PM.devContrib allowed))).sum) := by
  constructor
  · intro events k st h
    have he := PM.edgeStats_entry h
    refine ⟨he, ?_, ?_, PM.observed_nonneg events k⟩
    · rw [he, PM.statsOf_count]
    · rw [he, PM.statsOf_total]
  · exact PM.deviation_eq

/-- A log whose single case contains an event with an unparseable
timestamp (`none` = `NaN`): both adjacent durations are non-finite. -/
def c6Log : List PM.EngEvent :=
  [ { case_id := "c", activity := "A", timestamp := some 0, actor := none,
      tool := none, resource := none, outcome := none, issue_family := none }
  , { case_id := "c", activity := "B", timestamp := none, actor := none,
      tool := none, resource := none, outcome := none, issue_family := none }
  , { case_id := "c", activity := "C", timestamp := some 120000, actor := none,
      tool := none, resource := none, outcome := none, issue_family := none } ]

def c6Zero : PM.EdgeStats :=
  { count := 0, totalMin := 0, meanMin := 0, p95Min := 0, medianMin := 0 }

/-- Witness for C6: on `c6Log` the `A -> B` transition's `NaN` duration is
excluded — its entry aggregates the empty duration list. -/
theorem C6_bad_durations_excluded_witness :
    (("A -> B", c6Zero) ∈ PM.computeEdgeStats c6Log) ∧
    c6Zero.count = (PM.observedDurations c6Log "A -> B").length ∧
    c6Zero.totalMin = (PM.observedDurations c6Log "A -> B").sum := by
  have heq : PM.computeEdgeStats c6Log = [("A -> B", c6Zero), ("B -> C", c6Zero)] := by
    with_unfolding_all rfl
  have hmem : ("A -> B", c6Zero) ∈ PM.computeEdgeStats c6Log := by
    rw [heq]
    exact List.mem_cons_self _ _
  have h := (C6_bad_durations_excluded.1 c6Log "A -> B" c6Zero hmem)
  exact ⟨hmem, h.2.1, h.2.2.1⟩

/-! ## Claim C7 — lead-time exclusions -/

/-- C7: `computeCaseLeadTimes` aggregates exactly the lead times of the
case groups with at least two events (and a finite, non-negative last-first
difference): `caseLeadContrib` yields nothing for a group of fewer than two
events — in particular a one-event case contributes to none of count, mean,
median or p95 — and yields the chronologically-sorted group's
last-timestamp minus first-timestamp in minutes otherwise. -/
theorem C7_lead_time_exclusion (events : List PM.EngEvent) :
    (PM.computeCaseLeadTimes events).count = (PM.caseLeads events).length ∧
    (PM.computeCaseLeadTimes events).meanMin =
      (if (PM.caseLeads events).length = 0 then 0
       else (PM.caseLeads events).sum / ((PM.caseLeads events).length : ℚ)) ∧
    (PM.computeCaseLeadTimes events).medianMin =
      PM.percentile (List.insertionSort (· ≤ ·) (PM.caseLeads events)) (1/2) ∧
    (PM.computeCaseLeadTimes events).p95Min =
      PM.percentile (List.insertionSort (· ≤ ·) (PM.caseLeads events)) (19/20) := by
  have hfold : ((PM.groupByCase events).foldl
      (fun acc g =>
        if g.2.length < 2 then acc
        else match PM.caseLead g.2 with
          | some d => if 0 ≤ d then acc ++ [d] else acc
          | none => acc) []) = PM.caseLeads events := by
    rw [PM.foldl_leads]
    rfl
  unfold PM.computeCaseLeadTimes
  dsimp only
  rw [hfold]
  have hlen := (List.perm_insertionSort (· ≤ ·) (PM.caseLeads events)).length_eq
  have hsum := (List.perm_insertionSort (· ≤ ·) (PM.caseLeads events)).sum_eq
  refine ⟨hlen, ?_, rfl, rfl⟩
  rw [PM.foldl_add_eq_sum, zero_add, hlen, hsum]

/-! ## Claim C10 — an entry exists even when every duration is discarded -/

/-- C10: `computeEdgeStats` has an entry for a key exactly when some case
trace contains an adjacent pair bearing that key — the key is `set` even
when the pair's duration fails the filter — and when all of a key's
durations are discarded the entry is the all-zero record (`percentile` of
the empty list being defined as `0`). -/
theorem C10_edge_entry_even_when_discarded :
    (∀ events k, (∃ st, (k, st) ∈ PM.computeEdgeStats events) ↔
        ∃ g ∈ PM.groupByCase events, ∃ p ∈ PM.adjPairs g.2,
          PM.edgeKey p.1.activity p.2.activity = k) ∧
    (∀ events k st, (k, st) ∈ PM.computeEdgeStats events →
        PM.observedDurations events k = [] →
        st = { count := 0, totalMin := 0, meanMin := 0, p95Min := 0, medianMin := 0 }) := by
  constructor
  · exact PM.edgeStats_key_iff
  · intro events k st h hobs
    rw [PM.edgeStats_entry h, hobs]
    rfl

/-- A one-case log whose only transition has a `NaN` duration. -/
def c10Log : List PM.EngEvent :=
  [ { case_id := "c", activity := "A", timestamp := some 0, actor := none,
      tool := none, resource := none, outcome := none, issue_family := none }
  , { case_id := "c", activity := "B", timestamp := none, actor := none,
      tool := none, resource := none, outcome := none, issue_family := none } ]

def c10Zero : PM.EdgeStats :=
  { count := 0, totalMin := 0, meanMin := 0, p95Min := 0, medianMin := 0 }

/-- Witness for C10: the `A -> B` entry exists on `c10Log` although its only
duration is discarded, and the theorem pins it to the all-zero record. -/
theorem C10_edge_entry_witness :
    (("A -> B", c10Zero) ∈ PM.computeEdgeStats c10Log) ∧
    PM.observedDurations c10Log "A -> B" = [] ∧
    c10Zero = { count := 0, totalMin := 0, meanMin := 0, p95Min := 0, medianMin := 0 } := by
  have heq : PM.computeEdgeStats c10Log = [("A -> B", c10Zero)] := by
    with_unfolding_all rfl
  have hmem : ("A -> B", c10Zero) ∈ PM.computeEdgeStats c10Log := by
    rw [heq]
    exact List.mem_cons_self _ _
  have hobs : PM.observedDurations c10Log "A -> B" = [] := by
    with_unfolding_all rfl
  exact ⟨hmem, hobs,
    C10_edge_entry_even_when_discarded.2 c10Log "A -> B" c10Zero hmem hobs⟩

namespace PM

/-! ### Floor/ceiling bridges for `percentile` -/

theorem ratFloor_le (q : ℚ) : (ratFloor q : ℚ) ≤ q := by
  rw [ratFloor_eq_floor]; exact Int.floor_le q

theorem lt_ratFloor_add_one (q : ℚ) : q < (ratFloor q : ℚ) + 1 := by
  rw [ratFloor_eq_floor]; exact_mod_cast Int.lt_floor_add_one q

theorem le_ratCeil (q : ℚ) : q ≤ (ratCeil q : ℚ) := by
  rw [ratCeil_eq_ceil]; exact Int.le_ceil q

theorem ratFloor_le_ratCeil (q : ℚ) : ratFloor q ≤ ratCeil q := by
  rw [ratFloor_eq_floor, ratCeil_eq_ceil]; exact Int.floor_le_ceil q

theorem ratCeil_le_ratFloor_add_one (q : ℚ) : ratCeil q ≤ ratFloor q + 1 := by
  rw [ratFloor_eq_floor, ratCeil_eq_ceil]; exact Int.ceil_le_floor_add_one q

theorem ratFloor_mono {a b : ℚ} (h : a ≤ b) : ratFloor a ≤ ratFloor b := by
  rw [ratFloor_eq_floor, ratFloor_eq_floor]; exact Int.floor_le_floor h

theorem ratFloor_nonneg {q : ℚ} (h : 0 ≤ q) : 0 ≤ ratFloor q := by
  rw [ratFloor_eq_floor]; exact Int.floor_nonneg.2 h

theorem ratCeil_le_int {q : ℚ} {z : ℤ} (h : q ≤ (z : ℚ)) : ratCeil q ≤ z := by
  rw [ratCeil_eq_ceil]; exact Int.ceil_le.2 h

theorem ratFloor_intCast (z : ℤ) : ratFloor (z : ℚ) = z := by
  rw [ratFloor_eq_floor]; exact Int.floor_intCast z

theorem ratCeil_intCast (z : ℤ) : ratCeil (z : ℚ) = z := by
  rw [ratCeil_eq_ceil]; exact Int.ceil_intCast z

/-! ### `getD` facts on sorted non-negative lists -/

theorem getD_mem {l : List ℚ} {i : ℕ} (h : i < l.length) (d : ℚ) : l.getD i d ∈ l := by
  rw [List.getD_eq_getElem?_getD, List.getElem?_eq_getElem h]
  exact List.getElem_mem h

theorem getD_nonneg {l : List ℚ} (hall : ∀ d ∈ l, 0 ≤ d) (i : ℕ) : 0 ≤ l.getD i 0 := by
  by_cases h : i < l.length
  · exact hall _ (getD_mem h 0)
  · rw [List.getD_eq_getElem?_getD, List.getElem?_eq_none (le_of_not_lt h)]
    exact le_refl 0

theorem sorted_getD_mono {l : List ℚ} (hs : l.Sorted (· ≤ ·)) {i j : ℕ}
    (hij : i ≤ j) (hj : j < l.length) : l.getD i 0 ≤ l.getD j 0 := by
  have hi : i < l.length := Nat.lt_of_le_of_lt hij hj
  rcases eq_or_lt_of_le hij with rfl | hlt
  · exact le_refl _
  · have hrel := List.Sorted.rel_get_of_lt hs
      (a := ⟨i, hi⟩) (b := ⟨j, hj⟩) (by exact hlt)
    rw [List.getD_eq_getElem?_getD, List.getElem?_eq_getElem hi,
      List.getD_eq_getElem?_getD, List.getElem?_eq_getElem hj]
    exact hrel

/-! ### The interpolation value at a rank index -/

/-- The body of `percentile` at a given fractional rank `idx`. -/
def valAt (s : List ℚ) (idx : ℚ) : ℚ :=
  if ratFloor idx = ratCeil idx then s.getD (ratFloor idx).toNat 0
  else
    s.getD (ratFloor idx).toNat 0 * (1 - (idx - (ratFloor idx : ℚ))) +
      s.getD (ratCeil idx).toNat 0 * (idx - (ratFloor idx : ℚ))

theorem percentile_eq_valAt (s : List ℚ) (h : ¬ s.length = 0) (p : ℚ) :
    percentile s p = valAt s (((s.length : ℚ) - 1) * p) := by
  unfold percentile valAt
  rw [if_neg h]

theorem valAt_nonneg (s : List ℚ) (hall : ∀ d ∈ s, 0 ≤ d) (idx : ℚ) :
    0 ≤ valAt s idx := by
  unfold valAt
  split
  · exact getD_nonneg hall _
  · have hw0 : 0 ≤ idx - (ratFloor idx : ℚ) := sub_nonneg.2 (ratFloor_le idx)
    have hw1 : idx - (ratFloor idx : ℚ) < 1 := by
      have := lt_ratFloor_add_one idx
      linarith
    exact add_nonneg
      (mul_nonneg (getD_nonneg hall _) (by linarith))
      (mul_nonneg (getD_nonneg hall _) hw0)

theorem percentile_nonneg (s : List ℚ) (hall : ∀ d ∈ s, 0 ≤ d) (p : ℚ) :
    0 ≤ percentile s p := by
  by_cases h : s.length = 0
  · unfold percentile
    rw [if_pos h]
  · rw [percentile_eq_valAt s h]
    exact valAt_nonneg s hall _

theorem valAt_bounds (s : List ℚ) (hs : s.Sorted (· ≤ ·)) (hne : s.length ≠ 0)
    {idx : ℚ} (h0 : 0 ≤ idx) (htop : idx ≤ (s.length : ℚ) - 1) :
    s.getD (ratFloor idx).toNat 0 ≤ valAt s idx ∧
      valAt s idx ≤ s.getD (ratCeil idx).toNat 0 := by
  have hfl0 : 0 ≤ ratFloor idx := ratFloor_nonneg h0
  have hfc : ratFloor idx ≤ ratCeil idx := ratFloor_le_ratCeil idx
  have hcTop : ratCeil idx ≤ (s.length : ℤ) - 1 := by
    apply ratCeil_le_int
    push_cast
    exact htop
  have hlen1 : 1 ≤ s.length := Nat.one_le_iff_ne_zero.2 hne
  have hciN : (ratCeil idx).toNat < s.length := by omega
  have hord : (ratFloor idx).toNat ≤ (ratCeil idx).toNat := by omega
  have hab : s.getD (ratFloor idx).toNat 0 ≤ s.getD (ratCeil idx).toNat 0 :=
    sorted_getD_mono hs hord hciN
  unfold valAt
  split
  · exact ⟨le_refl _, by rename_i h; rw [h]⟩
  · have hw0 : 0 ≤ idx - (ratFloor idx : ℚ) := sub_nonneg.2 (ratFloor_le idx)
    have hw1 : idx - (ratFloor idx : ℚ) < 1 := by
      have := lt_ratFloor_add_one idx
      linarith
    constructor
    · nlinarith [mul_nonneg hw0 (sub_nonneg.2 hab)]
    · nlinarith [mul_nonneg (by linarith : (0:ℚ) ≤ 1 - (idx - (ratFloor idx : ℚ))) (sub_nonneg.2 hab)]

theorem valAt_mono (s : List ℚ) (hs : s.Sorted (· ≤ ·)) (hne : s.length ≠ 0)
    {i1 i2 : ℚ} (h0 : 0 ≤ i1) (h12 : i1 ≤ i2) (htop : i2 ≤ (s.length : ℚ) - 1) :
    valAt s i1 ≤ valAt s i2 := by
  have h02 : 0 ≤ i2 := h0.trans h12
  have h1top : i1 ≤ (s.length : ℚ) - 1 := h12.trans htop
  have hlen1 : 1 ≤ s.length := Nat.one_le_iff_ne_zero.2 hne
  have hF12 : ratFloor i1 ≤ ratFloor i2 := ratFloor_mono h12
  have hF10 : 0 ≤ ratFloor i1 := ratFloor_nonneg h0
  have hC2top : ratCeil i2 ≤ (s.length : ℤ) - 1 := by
    apply ratCeil_le_int; push_cast; exact htop
  have hF2C2 : ratFloor i2 ≤ ratCeil i2 := ratFloor_le_ratCeil i2
  by_cases hAB : ratCeil i1 ≤ ratFloor i2
  · have hC10 : 0 ≤ ratCeil i1 := le_trans hF10 (ratFloor_le_ratCeil i1)
    calc valAt s i1 ≤ s.getD (ratCeil i1).toNat 0 := (valAt_bounds s hs hne h0 h1top).2
      _ ≤ s.getD (ratFloor i2).toNat 0 := by
          apply sorted_getD_mono hs (by omega) (by omega)
      _ ≤ valAt s i2 := (valAt_bounds s hs hne h02 htop).1
  · push_neg at hAB
    have hCF1 : ratCeil i1 ≤ ratFloor i1 + 1 := ratCeil_le_ratFloor_add_one i1
    have heqF : ratFloor i2 = ratFloor i1 := by omega
    have hC1 : ratCeil i1 = ratFloor i1 + 1 := by omega
    have hCF2 : ratCeil i2 ≤ ratFloor i2 + 1 := ratCeil_le_ratFloor_add_one i2
    rcases (by omega : ratCeil i2 = ratFloor i1 ∨ ratCeil i2 = ratFloor i1 + 1) with hC2 | hC2
    · -- then i2 ≤ ⌊i1⌋ ≤ i1 so i1 = i2
      have hle : i2 ≤ (ratFloor i1 : ℚ) := by
        have := le_ratCeil i2
        rw [hC2] at this
        exact this
      have : i1 = i2 := le_antisymm h12 (hle.trans (ratFloor_le i1))
      rw [this]
    · have hne12 : ¬ ratFloor i1 = ratCeil i1 := by omega
      have hne22 : ¬ ratFloor i2 = ratCeil i2 := by omega
      unfold valAt
      rw [if_neg hne12, if_neg hne22, heqF, hC1, hC2]
      have hup : (ratFloor i1 + 1).toNat < s.length := by omega
      have hab : s.getD (ratFloor i1).toNat 0 ≤ s.getD (ratFloor i1 + 1).toNat 0 :=
        sorted_getD_mono hs (by omega) hup
      have hkey : 0 ≤ (i2 - i1) *
          (s.getD (ratFloor i1 + 1).toNat 0 - s.getD (ratFloor i1).toNat 0) :=
        mul_nonneg (sub_nonneg.2 h12) (sub_nonneg.2 hab)
      nlinarith [hkey]

theorem percentile_mono (s : List ℚ) (hs : s.Sorted (· ≤ ·)) (hne : s ≠ [])
    {p1 p2 : ℚ} (h0 : 0 ≤ p1) (h12 : p1 ≤ p2) (h1 : p2 ≤ 1) :
    percentile s p1 ≤ percentile s p2 := by
  have hL : ¬ s.length = 0 := by
    simpa using (List.length_pos.2 hne).ne'
  rw [percentile_eq_valAt s hL, percentile_eq_valAt s hL]
  have hd : (0 : ℚ) ≤ (s.length : ℚ) - 1 := by
    have h1n : (1 : ℚ) ≤ (s.length : ℚ) := by
      exact_mod_cast Nat.one_le_iff_ne_zero.2 hL
    linarith
  apply valAt_mono s hs hL (mul_nonneg hd h0) (mul_le_mul_of_nonneg_left h12 hd)
  calc ((s.length : ℚ) - 1) * p2 ≤ ((s.length : ℚ) - 1) * 1 :=
        mul_le_mul_of_nonneg_left h1 hd
    _ = (s.length : ℚ) - 1 := mul_one _

theorem percentile_singleton (d p : ℚ) : percentile [d] p = d := by
  unfold percentile
  rw [if_neg (by norm_num)]
  have hidx : ((([d] : List ℚ).length : ℚ) - 1) * p = 0 := by
    norm_num
  rw [hidx]
  have hf : ratFloor (0 : ℚ) = 0 := by
    have := ratFloor_intCast 0
    simpa using this
  have hc : ratCeil (0 : ℚ) = 0 := by
    have := ratCeil_intCast 0
    simpa using this
  dsimp only
  rw [hf, hc, if_pos rfl]
  rfl

/-! ### `statsOfDurations` on non-empty and singleton inputs -/

theorem statsOf_median_props (arr : List ℚ) (hall : ∀ d ∈ arr, 0 ≤ d) (hne : arr ≠ []) :
    0 ≤ (statsOfDurations arr).medianMin ∧
      (statsOfDurations arr).medianMin ≤ (statsOfDurations arr).p95Min := by
  have hs := List.sorted_insertionSort (· ≤ ·) arr
  have hperm := List.perm_insertionSort (· ≤ ·) arr
  have hall' : ∀ d ∈ List.insertionSort (· ≤ ·) arr, 0 ≤ d :=
    fun d hd => hall d (hperm.mem_iff.1 hd)
  have hne' : List.insertionSort (· ≤ ·) arr ≠ [] := by
    intro h
    apply hne
    have hl := hperm.length_eq
    rw [h] at hl
    exact List.length_eq_zero.1 hl.symm
  constructor
  · show 0 ≤ percentile (List.insertionSort (· ≤ ·) arr) (1/2)
    exact percentile_nonneg _ hall' _
  · show percentile (List.insertionSort (· ≤ ·) arr) (1/2) ≤
      percentile (List.insertionSort (· ≤ ·) arr) (19/20)
    exact percentile_mono _ hs hne' (by norm_num) (by norm_num) (by norm_num)

theorem statsOf_single (d : ℚ) :
    statsOfDurations [d] =
      { count := 1, totalMin := d, meanMin := d, p95Min := d, medianMin := d } := by
  unfold statsOfDurations
  have hsort : List.insertionSort (· ≤ ·) [d] = [d] := rfl
  rw [hsort]
  simp [percentile_singleton]

end PM

/-! ## Claim C8 — percentile monotonicity of the edge statistics -/

/-- C8: for every edge-statistics entry aggregated from a non-empty
(filtered, hence non-negative) duration set, `0 ≤ medianMin ≤ p95Min`; and
when the set has exactly one element, mean, median and p95 all equal that
element (which is `totalMin` for count 1). -/
theorem C8_percentile_monotonicity :
    ∀ events k st, (k, st) ∈ PM.computeEdgeStats events →
      (0 < st.count → 0 ≤ st.medianMin ∧ st.medianMin ≤ st.p95Min) ∧
      (st.count = 1 → st.meanMin = st.totalMin ∧ st.medianMin = st.totalMin ∧
        st.p95Min = st.totalMin) := by
  intro events k st hmem
  have he := PM.edgeStats_entry hmem
  have hall := PM.observed_nonneg events k
  constructor
  · intro hc
    rw [he] at hc
    rw [PM.statsOf_count] at hc
    have hne : PM.observedDurations events k ≠ [] := List.length_pos.1 hc
    rw [he]
    exact PM.statsOf_median_props _ hall hne
  · intro hc
    rw [he] at hc
    rw [PM.statsOf_count] at hc
    obtain ⟨d, hd⟩ := List.length_eq_one.1 hc
    rw [he, hd, PM.statsOf_single]
    exact ⟨rfl, rfl, rfl⟩

def c8Log : List PM.EngEvent :=
  [ { case_id := "c", activity := "A", timestamp := some 0, actor := none,
      tool := none, resource := none, outcome := none, issue_family := none }
  , { case_id := "c", activity := "B", timestamp := some 300000, actor := none,
      tool := none, resource := none, outcome := none, issue_family := none } ]

def c8Entry : PM.EdgeStats :=
  { count := 1, totalMin := 5, meanMin := 5, p95Min := 5, medianMin := 5 }

/-- Witness for C8 on a one-transition log with a 5-minute duration. -/
theorem C8_percentile_monotonicity_witness :
    (("A -> B", c8Entry) ∈ PM.computeEdgeStats c8Log) ∧
    (0 ≤ c8Entry.medianMin ∧ c8Entry.medianMin ≤ c8Entry.p95Min) ∧
    (c8Entry.meanMin = c8Entry.totalMin ∧ c8Entry.medianMin = c8Entry.totalMin ∧
      c8Entry.p95Min = c8Entry.totalMin) := by
  have heq : PM.computeEdgeStats c8Log = [("A -> B", c8Entry)] := by
    with_unfolding_all rfl
  have hmem : ("A -> B", c8Entry) ∈ PM.computeEdgeStats c8Log := by
    rw [heq]
    exact List.mem_cons_self _ _
  have h := C8_percentile_monotonicity c8Log "A -> B" c8Entry hmem
  exact ⟨hmem, h.1 (by decide), h.2 (by decide)⟩

namespace PM

/-! ### The nearest-column scan -/

theorem nearest_fold_inv (x : ℚ) (l : List ℚ) :
    ∀ acc : ℚ × ℚ, acc.2 = |x - acc.1| →
      (l.foldl (nearStep x) acc).2 = |x - (l.foldl (nearStep x) acc).1| ∧
      ((l.foldl (nearStep x) acc).1 = acc.1 ∨ (l.foldl (nearStep x) acc).1 ∈ l) ∧
      (l.foldl (nearStep x) acc).2 ≤ acc.2 ∧
      ∀ c ∈ l, (l.foldl (nearStep x) acc).2 ≤ |x - c| := by
  induction l with
  | nil =>
    intro acc hacc
    exact ⟨hacc, Or.inl rfl, le_refl _, by simp⟩
  | cons c l ih =>
    intro acc hacc
    rw [List.foldl_cons]
    by_cases h : |x - c| < acc.2
    · have hstep : nearStep x acc c = (c, |x - c|) := by
        unfold nearStep
        rw [if_pos h]
      rw [hstep]
      obtain ⟨h1, h2, h3, h4⟩ := ih (c, |x - c|) rfl
      refine ⟨h1, ?_, h3.trans (le_of_lt h), ?_⟩
      · rcases h2 with h2 | h2
        · exact Or.inr (by rw [h2]; exact List.mem_cons_self _ _)
        · exact Or.inr (List.mem_cons_of_mem _ h2)
      · intro c' hc'
        rcases List.mem_cons.1 hc' with rfl | hc'
        · exact h3
        · exact h4 c' hc'
    · have hstep : nearStep x acc c = acc := by
        unfold nearStep
        rw [if_neg h]
      rw [hstep]
      obtain ⟨h1, h2, h3, h4⟩ := ih acc hacc
      refine ⟨h1, ?_, h3, ?_⟩
      · rcases h2 with h2 | h2
        · exact Or.inl h2
        · exact Or.inr (List.mem_cons_of_mem _ h2)
      · intro c' hc'
        rcases List.mem_cons.1 hc' with rfl | hc'
        · exact h3.trans (le_of_not_lt h)
        · exact h4 c' hc'

/-- `nearestStageX` returns a member of the (non-empty) column list at
minimal absolute distance from `x`. -/
theorem nearestStageX_spec (stageCols : List ℚ) (x : ℚ) (h : stageCols ≠ []) :
    nearestStageX stageCols x ∈ stageCols ∧
      ∀ c ∈ stageCols, |x - nearestStageX stageCols x| ≤ |x - c| := by
  match stageCols, h with
  | c0 :: rest, _ =>
    show (((c0 :: rest).foldl (nearStep x) (c0, |x - c0|)).1 ∈ c0 :: rest) ∧ _
    obtain ⟨h1, h2, h3, h4⟩ := nearest_fold_inv x (c0 :: rest) (c0, |x - c0|) rfl
    constructor
    · rcases h2 with h2 | h2
      · rw [h2]; exact List.mem_cons_self _ _
      · exact h2
    · intro c hc
      show |x - ((c0 :: rest).foldl (nearStep x) (c0, |x - c0|)).1| ≤ _
      rw [← h1]
      exact h4 c hc

end PM

/-! ## Claim C9 — lock-columns snapping of manual positions -/

/-- C9: with `lockColumns` on, every emitted node that has a manual
position override sits at `y` exactly equal to the manual `y` and at `x`
equal to the stage column nearest (by absolute distance) to the manual `x`;
and whenever any manual override exists, overlap resolution is skipped
(the node list is exactly `mkRfNodes`, the unresolved array). -/
theorem C9_lock_columns_snap :
    ∀ args : PM.FullGraphArgs, args.lockColumns = true →
      (args.manualPos ≠ [] → PM.buildFullProcessGraph args = PM.mkRfNodes args) ∧
      (∀ nd ∈ PM.buildFullProcessGraph args, ∀ mp : PM.Pos,
        PM.alGet? args.manualPos nd.id = some mp →
          nd.position.y = mp.y ∧
          nd.position.x = PM.nearestStageX args.stageCols mp.x ∧
          (args.stageCols ≠ [] →
            nd.position.x ∈ args.stageCols ∧
            ∀ c ∈ args.stageCols, |mp.x - nd.position.x| ≤ |mp.x - c|)) := by
  intro args hlock
  have hbranch : args.manualPos ≠ [] →
      PM.buildFullProcessGraph args = PM.mkRfNodes args := by
    intro hmp
    unfold PM.buildFullProcessGraph
    rw [if_neg]
    rintro ⟨-, hlen⟩
    exact hmp (List.length_eq_zero.1 hlen)
  refine ⟨hbranch, ?_⟩
  intro nd hnd mp hmp
  have hmpne : args.manualPos ≠ [] := by
    intro h
    rw [h] at hmp
    simp [PM.alGet?] at hmp
  rw [hbranch hmpne] at hnd
  unfold PM.mkRfNodes at hnd
  dsimp only at hnd
  rcases List.mem_map.1 hnd with ⟨n, hn, heq⟩
  have hid : nd.id = n.id := by rw [← heq]
  rw [hid] at hmp
  have hpos : nd.position =
      { x := PM.nearestStageX args.stageCols mp.x, y := mp.y } := by
    rw [← heq]
    dsimp only
    rw [hmp]
    dsimp only
    rw [hlock]
    rfl
  refine ⟨by rw [hpos], by rw [hpos], ?_⟩
  intro hcols
  obtain ⟨hm, hmin⟩ := PM.nearestStageX_spec args.stageCols mp.x hcols
  rw [hpos]
  exact ⟨hm, hmin⟩

def c9ArgsW : PM.FullGraphArgs :=
  { model := { name := "m", start := "a", stop := "b", activities := ["a", "b"],
               allowedEdges := [("a", "b")] }
    stageCols := [100, 400]
    dfg := { nodes := [{ id := "a", count := 1 }], edges := [] }
    lockColumns := true
    autoSeparate := true
    manualPos := [("a", { x := 390, y := 77 })]
    selectedNodeId := none
    resByAct := []
    casesByAct := [] }

def c9NodeW : PM.RFNode :=
  { id := "a", nodeType := "celonisNode", position := { x := 400, y := 77 },
    data := { label := "a", count := 1, actor := none, eff := 0, cases := 0,
              inDeg := 0, outDeg := 0, isFocus := false } }

/-- Witness for C9: a single node with manual override `(390, 77)` and
columns `[100, 400]` is emitted at `(400, 77)` — snapped to the nearest
column with `y` preserved — and overlap resolution is skipped. -/
theorem C9_lock_columns_snap_witness :
    PM.buildFullProcessGraph c9ArgsW = PM.mkRfNodes c9ArgsW ∧
    c9NodeW.position.y = (77 : ℚ) ∧
    c9NodeW.position.x = PM.nearestStageX c9ArgsW.stageCols 390 ∧
    c9NodeW.position.x ∈ c9ArgsW.stageCols := by
  have h := C9_lock_columns_snap c9ArgsW rfl
  have hlist : PM.buildFullProcessGraph c9ArgsW = [c9NodeW] := by
    with_unfolding_all rfl
  have hmem : c9NodeW ∈ PM.buildFullProcessGraph c9ArgsW := by
    rw [hlist]
    exact List.mem_cons_self _ _
  have hlookup : PM.alGet? c9ArgsW.manualPos c9NodeW.id =
      some ({ x := 390, y := 77 } : PM.Pos) := by
    with_unfolding_all rfl
  obtain ⟨hy, hx, hspec⟩ := h.2 c9NodeW hmem { x := 390, y := 77 } hlookup
  refine ⟨h.1 (by intro hh; exact absurd (congrArg List.length hh) (by decide)), hy, hx, ?_⟩
  exact (hspec (by intro hh; exact absurd (congrArg List.length hh) (by decide))).1
